import Mathlib

/-!
# Verification of the patriots-bot content-syndication pipeline

A shallow embedding of `src/bot.py` (an RSS → social-post batch job) and proofs
about its core components: the URL-normalising fingerprint (`item_hash`), the
relevance filter (`looks_like_patriots`), the bounded-length text composer
(`build_tweet`), the image resolver (`extract_image_url`), the persisted
seen-set store (`load_seen` / `save_seen`) and the dedupe-and-publish pipeline
(`run_bot`).

Modelling conventions:
* Python strings are `String` (`len` counts code points, as Lean's
  `String.length` does); byte strings are `List Nat`.
* Machine words in SHA-256 are `Nat` reduced `% 2^32`.
* Python `None`-able fields are `Option`; Python truthiness of a string is
  "is `some` and non-empty".
* External collaborators (the publish call `client.create_tweet`, which either
  returns or raises, and the image uploader) are parameters of the pipeline:
  a `Collab` record of pure functions, so a run is deterministic in its inputs.
* Library calls from the Python standard library (`urllib.parse.urlparse`,
  `hashlib.sha256`, `str.strip`/`lower`, `re` patterns used by the source) are
  embedded faithfully below; Unicode-dependent behaviour (case mapping,
  whitespace classes) is modelled on its ASCII fragment, which covers every
  string the claims and the source's own constants use.
-/

/-! ## Python character classes and string primitives -/

/-- Python `str.strip()` whitespace, ASCII fragment: space, `\t`, `\n`, `\r`,
`\x0b` (VT), `\x0c` (FF). -/
def isPyWs (c : Char) : Bool :=
  c = ' ' ∨ c = '\t' ∨ c = '\n' ∨ c = '\r' ∨ c.toNat = 11 ∨ c.toNat = 12

/-- Python `str.strip()` on the character list. -/
def pyStripL (l : List Char) : List Char :=
  ((l.dropWhile isPyWs).reverse.dropWhile isPyWs).reverse

/-- Python `str.strip()`. -/
def pyStripS (s : String) : String := ⟨pyStripL s.data⟩

/-- Python `str.lower()` (ASCII case mapping, which is all the source's
keywords and scheme characters need). -/
def pyLowerL (l : List Char) : List Char := l.map Char.toLower

/-- Python `str.lower()`. -/
def pyLowerS (s : String) : String := ⟨pyLowerL s.data⟩

/-- Python substring containment `pat in hay` (contiguous occurrence). -/
def containsSub (hay pat : List Char) : Bool :=
  pat.isPrefixOf hay ||
    match hay with
    | [] => false
    | _ :: t => containsSub t pat

/-- Python `str.rstrip("/")`: drop every trailing `'/'`. -/
def rstripSlash (l : List Char) : List Char :=
  (l.reverse.dropWhile (· = '/')).reverse

/-! ## UTF-8 encoding (`str.encode("utf-8")`) -/

/-- UTF-8 encoding of a single code point. -/
def utf8Char (c : Char) : List Nat :=
  let n := c.toNat
  if n < 128 then [n]
  else if n < 2048 then [192 + n / 64, 128 + n % 64]
  else if n < 65536 then [224 + n / 4096, 128 + (n / 64) % 64, 128 + n % 64]
  else [240 + n / 262144, 128 + (n / 4096) % 64, 128 + (n / 64) % 64, 128 + n % 64]

/-- UTF-8 encoding of a string, as a byte list. -/
def utf8Bytes (s : String) : List Nat := (s.data.map utf8Char).flatten

/-! ## SHA-256 (`hashlib.sha256(...).hexdigest()`)

A complete implementation of FIPS 180-4 SHA-256 over byte lists, with 32-bit
words as `Nat % 2^32`. -/

def M32 : Nat := 4294967296

def add32 (a b : Nat) : Nat := (a + b) % M32

def rotr32 (n x : Nat) : Nat := ((x >>> n) ||| (x <<< (32 - n))) % M32

def bigSigma0 (x : Nat) : Nat := (rotr32 2 x) ^^^ (rotr32 13 x) ^^^ (rotr32 22 x)

def bigSigma1 (x : Nat) : Nat := (rotr32 6 x) ^^^ (rotr32 11 x) ^^^ (rotr32 25 x)

def smallSigma0 (x : Nat) : Nat := (rotr32 7 x) ^^^ (rotr32 18 x) ^^^ (x >>> 3)

def smallSigma1 (x : Nat) : Nat := (rotr32 17 x) ^^^ (rotr32 19 x) ^^^ (x >>> 10)

def chFun (e f g : Nat) : Nat := (e &&& f) ^^^ ((e ^^^ 4294967295) &&& g)

def majFun (a b c : Nat) : Nat := (a &&& b) ^^^ (a &&& c) ^^^ (b &&& c)

def shaK : List Nat :=
  [0x428a2f98, 0x71374491, 0xb5c0fbcf, 0xe9b5dba5, 0x3956c25b, 0x59f111f1,
   0x923f82a4, 0xab1c5ed5] ++
  [0xd807aa98, 0x12835b01, 0x243185be, 0x550c7dc3, 0x72be5d74, 0x80deb1fe,
   0x9bdc06a7, 0xc19bf174] ++
  [0xe49b69c1, 0xefbe4786, 0x0fc19dc6, 0x240ca1cc, 0x2de92c6f, 0x4a7484aa,
   0x5cb0a9dc, 0x76f988da] ++
  [0x983e5152, 0xa831c66d, 0xb00327c8, 0xbf597fc7, 0xc6e00bf3, 0xd5a79147,
   0x06ca6351, 0x14292967] ++
  [0x27b70a85, 0x2e1b2138, 0x4d2c6dfc, 0x53380d13, 0x650a7354, 0x766a0abb,
   0x81c2c92e, 0x92722c85] ++
  [0xa2bfe8a1, 0xa81a664b, 0xc24b8b70, 0xc76c51a3, 0xd192e819, 0xd6990624,
   0xf40e3585, 0x106aa070] ++
  [0x19a4c116, 0x1e376c08, 0x2748774c, 0x34b0bcb5, 0x391c0cb3, 0x4ed8aa4a,
   0x5b9cca4f, 0x682e6ff3] ++
  [0x748f82ee, 0x78a5636f, 0x84c87814, 0x8cc70208, 0x90befffa, 0xa4506ceb,
   0xbef9a3f7, 0xc67178f2]

def shaInit : List Nat :=
  [0x6a09e667, 0xbb67ae85, 0x3c6ef372, 0xa54ff53a,
   0x510e527f, 0x9b05688c, 0x1f83d9ab, 0x5be0cd19]

/-- Extend the 16-word message block to the 64-word schedule. The accumulator
holds the words produced so far in reverse order, so the four back-references
are head look-ups. -/
def extendSchedule (acc : List Nat) : Nat → List Nat
  | 0 => acc.reverse
  | k + 1 =>
    let w2 := acc.getD 1 0
    let w7 := acc.getD 6 0
    let w15 := acc.getD 14 0
    let w16 := acc.getD 15 0
    extendSchedule
      (add32 (add32 (smallSigma1 w2) w7) (add32 (smallSigma0 w15) w16) :: acc) k

/-- The eight working variables of the compression loop. -/
structure Sha8 where
  va : Nat
  vb : Nat
  vc : Nat
  vd : Nat
  ve : Nat
  vf : Nat
  vg : Nat
  vh : Nat

def shaRound (s : Sha8) (ki wi : Nat) : Sha8 :=
  let t1 := add32 (add32 (add32 s.vh (bigSigma1 s.ve)) (chFun s.ve s.vf s.vg)) (add32 ki wi)
  let t2 := add32 (bigSigma0 s.va) (majFun s.va s.vb s.vc)
  ⟨add32 t1 t2, s.va, s.vb, s.vc, add32 s.vd t1, s.ve, s.vf, s.vg⟩

def shaRounds : Sha8 → List Nat → List Nat → Sha8
  | s, k :: ks, w :: ws => shaRounds (shaRound s k w) ks ws
  | s, _, _ => s

def compress (h : List Nat) (block : List Nat) : List Nat :=
  let w := extendSchedule block.reverse 48
  let s0 : Sha8 := ⟨h.getD 0 0, h.getD 1 0, h.getD 2 0, h.getD 3 0,
                    h.getD 4 0, h.getD 5 0, h.getD 6 0, h.getD 7 0⟩
  let s := shaRounds s0 shaK w
  [add32 s0.va s.va, add32 s0.vb s.vb, add32 s0.vc s.vc, add32 s0.vd s.vd,
   add32 s0.ve s.ve, add32 s0.vf s.vf, add32 s0.vg s.vg, add32 s0.vh s.vh]

/-- Big-endian 8-byte encoding of the bit length. -/
def lenBytes64 (n : Nat) : List Nat :=
  [(n >>> 56) % 256, (n >>> 48) % 256, (n >>> 40) % 256, (n >>> 32) % 256,
   (n >>> 24) % 256, (n >>> 16) % 256, (n >>> 8) % 256, n % 256]

/-- SHA-256 padding: `0x80`, zeros to 56 mod 64, then the bit length. -/
def padMsg (msg : List Nat) : List Nat :=
  let l := msg.length
  msg ++ [128] ++ List.replicate ((64 - ((l + 9) % 64)) % 64) 0 ++ lenBytes64 (l * 8)

/-- Group bytes into big-endian 32-bit words. -/
def bytesToWords : List Nat → List Nat
  | b0 :: b1 :: b2 :: b3 :: rest =>
    (b0 * 16777216 + b1 * 65536 + b2 * 256 + b3) :: bytesToWords rest
  | _ => []

/-- Group the word stream into 16-word blocks (the padded input is always a
whole number of blocks). -/
def words16 : List Nat → List (List Nat)
  | w0 :: w1 :: w2 :: w3 :: w4 :: w5 :: w6 :: w7 ::
    w8 :: w9 :: w10 :: w11 :: w12 :: w13 :: w14 :: w15 :: rest =>
    [w0, w1, w2, w3, w4, w5, w6, w7, w8, w9, w10, w11, w12, w13, w14, w15] ::
      words16 rest
  | _ => []

def processBlocks (h : List Nat) : List (List Nat) → List Nat
  | [] => h
  | b :: rest => processBlocks (compress h b) rest

def sha256Words (msg : List Nat) : List Nat :=
  processBlocks shaInit (words16 (bytesToWords (padMsg msg)))

def wordBytes (w : Nat) : List Nat :=
  [(w >>> 24) % 256, (w >>> 16) % 256, (w >>> 8) % 256, w % 256]

def sha256Bytes (msg : List Nat) : List Nat := ((sha256Words msg).map wordBytes).flatten

def hexDigits : List Char :=
  ['0', '1', '2', '3', '4', '5', '6', '7'] ++
    ['8', '9', 'a', 'b', 'c', 'd', 'e', 'f']

def byteHex (b : Nat) : List Char := [hexDigits.getD ((b / 16) % 16) '0', hexDigits.getD (b % 16) '0']

/-- `hashlib.sha256(msg).hexdigest()`. -/
def sha256hex (msg : List Nat) : String := ⟨((sha256Bytes msg).map byteHex).flatten⟩

set_option maxRecDepth 400000

/-! ## `urllib.parse.urlparse` (CPython ≥ 3.11 `urlsplit` plus params splitting)

The source's `normalize_url` calls `urlparse` and keeps `scheme`, `netloc` and
`path`.  We embed the relevant pipeline of CPython's `urlsplit`: strip leading
C0-control/space characters (CPython deliberately only `lstrip`s), remove
`\t`, `\r`, `\n` everywhere, detect the scheme, split the netloc at the first
of `/?#` (raising `ValueError` on mismatched brackets in the netloc — the only
`Exception` branch `normalize_url` can realistically hit; the non-ASCII NFKC
netloc check is outside this ASCII-fragment model), split off fragment then
query, and finally split `;params` off the last path segment (`urlparse` on
top of `urlsplit`). -/

/-- `_WHATWG_C0_CONTROL_OR_SPACE`: code points `0x00`–`0x20`. -/
def isC0OrSpace (c : Char) : Bool := c.toNat ≤ 32

/-- `_UNSAFE_URL_BYTES_TO_REMOVE`: tab, CR, LF. -/
def isUnsafeUrlChar (c : Char) : Bool := c = '\t' ∨ c = '\r' ∨ c = '\n'

/-- `url.lstrip(C0-or-space)` followed by removing the unsafe bytes. -/
def cleanUrl (l : List Char) : List Char :=
  (l.dropWhile isC0OrSpace).filter (fun c => ¬ isUnsafeUrlChar c)

/-- `scheme_chars`: ASCII letters, digits, `+`, `-`, `.`. -/
def isSchemeChar (c : Char) : Bool := c.isAlpha || c.isDigit || c = '+' || c = '-' || c = '.'

/-- Scheme detection: the text before the first `:` qualifies iff it is
non-empty, starts with an ASCII letter and consists of scheme characters.
`:` is not a scheme character, so "everything before the first `:` is a
scheme character" is the same as "the maximal scheme-character run is
followed by `:`", which is how it is phrased here.  Returns the lowered
scheme and the remainder after the colon. -/
def splitScheme (l : List Char) : List Char × List Char :=
  if (l.dropWhile isSchemeChar).head? = some ':' ∧ l.takeWhile isSchemeChar ≠ [] ∧
      ((l.takeWhile isSchemeChar).headD ' ').isAlpha then
    ((l.takeWhile isSchemeChar).map Char.toLower, (l.dropWhile isSchemeChar).tail)
  else ([], l)

def isNetlocDelim (c : Char) : Bool := c = '/' ∨ c = '?' ∨ c = '#'

/-- `url[:2] == '//'` guarding `_splitnetloc` (split at the first of `/?#`
after the two slashes), plus the mismatched-bracket `ValueError` check; `none`
models the raised exception. -/
def splitNetloc (l : List Char) : Option (List Char × List Char) :=
  if l.take 2 = ['/', '/'] then
    if ('[' ∈ (l.drop 2).takeWhile (fun c => ¬ isNetlocDelim c)) ≠
        (']' ∈ (l.drop 2).takeWhile (fun c => ¬ isNetlocDelim c)) then none
    else some ((l.drop 2).takeWhile (fun c => ¬ isNetlocDelim c),
      (l.drop 2).dropWhile (fun c => ¬ isNetlocDelim c))
  else some ([], l)

/-- `url.split(d, 1)` when `d` occurs, else `(url, "")` — the two cases agree
with this single expression. -/
def splitOnFirst (d : Char) (l : List Char) : List Char × List Char :=
  (l.takeWhile (· ≠ d), (l.dropWhile (· ≠ d)).tail)

/-- `_splitparams`: split `;params` off the last path segment (only past the
last `/` when the path has one). -/
def splitParams (p : List Char) : List Char × List Char :=
  if '/' ∈ p then
    let b := (p.reverse.takeWhile (· ≠ '/')).reverse
    let a := (p.reverse.dropWhile (· ≠ '/')).reverse
    if ';' ∈ b then (a ++ b.takeWhile (· ≠ ';'), (b.dropWhile (· ≠ ';')).tail)
    else (p, [])
  else
    if ';' ∈ p then (p.takeWhile (· ≠ ';'), (p.dropWhile (· ≠ ';')).tail)
    else (p, [])

structure UrlParts where
  scheme : List Char
  netloc : List Char
  path : List Char
  params : List Char
  query : List Char
  fragment : List Char
deriving DecidableEq

/-- `urllib.parse.urlparse`; `none` models a raised `ValueError`.  The
pipeline: clean, split scheme, split netloc, split fragment then query off
the remainder, split params off the path. -/
def pyUrlparse (u : String) : Option UrlParts :=
  match splitNetloc (splitScheme (cleanUrl u.data)).2 with
  | none => none
  | some nlr =>
    some ⟨(splitScheme (cleanUrl u.data)).1, nlr.1,
      (splitParams (splitOnFirst '?' (splitOnFirst '#' nlr.2).1).1).1,
      (splitParams (splitOnFirst '?' (splitOnFirst '#' nlr.2).1).1).2,
      (splitOnFirst '?' (splitOnFirst '#' nlr.2).1).2,
      (splitOnFirst '#' nlr.2).2⟩

/-- `normalize_url` from `src/bot.py`: keep `scheme://netloc+path`, strip
trailing slashes; on a parse exception fall back to the raw string. -/
def normalize_url (u : String) : String :=
  match pyUrlparse u with
  | some p => ⟨rstripSlash (p.scheme ++ ("://".data ++ (p.netloc ++ p.path)))⟩
  | none => u

/-- `item_hash` from `src/bot.py`:
`sha256(f"{normalize_url(url)}|{(title or '').strip().lower()}".encode()).hexdigest()`. -/
def item_hash (title url : String) : String :=
  sha256hex (utf8Bytes (normalize_url url ++ "|" ++ pyLowerS (pyStripS title)))

/-! ## Relevance filter -/

def KEYWORDS : List String := ["patriot", "new england", "foxboro", "gillette"]

/-- `looks_like_patriots` from `src/bot.py`: any keyword occurs in the
lowercased title. -/
def looks_like_patriots (title : String) : Bool :=
  KEYWORDS.any (fun k => containsSub (pyLowerL title.data) k.data)

/-! ## Title cleaning (`re.sub(r"\s*[-–—]\s*[^-–—]{2,}$", "", title.strip())`) -/

def isDashChar (c : Char) : Bool := c = '-' ∨ c = '–' ∨ c = '—'

/-- Does the regex `\s*[-–—]\s*[^-–—]{2,}$` match the whole suffix starting
here?  Because the pattern must reach the end of the string, backtracking
semantics reduce to: after the maximal whitespace run comes a dash, and the
remainder after the dash is dash-free of length ≥ 2 (`\s*` then gives up just
enough whitespace for `[^-–—]{2,}`, and whitespace is itself dash-free). -/
def dashSuffixAt (l : List Char) : Bool :=
  match l.dropWhile isPyWs with
  | d :: rest => isDashChar d ∧ 2 ≤ rest.length ∧ rest.all (fun c => ¬ isDashChar c)
  | [] => false

/-- `re.sub(pattern, "", s)` for the end-anchored pattern above: delete from
the leftmost position whose suffix matches. -/
def dropDashSuffix : List Char → List Char
  | [] => []
  | c :: rest => if dashSuffixAt (c :: rest) then [] else c :: dropDashSuffix rest

/-- `clean_title` from `src/bot.py`. -/
def clean_title (t : String) : String := ⟨dropDashSuffix (pyStripL t.data)⟩

/-! ## Text composer (`build_tweet`) -/

def DEFAULT_TAGS : String := " #Patriots #NFL"

def REWORD_PREFIXES : List String := ["Update:", "Report:", "New:", "Latest:"]

/-- `f"{maybe} — {source}\n{url}{DEFAULT_TAGS}"`. -/
def tweetText (maybe source url : String) : String :=
  maybe ++ " — " ++ source ++ "\n" ++ url ++ DEFAULT_TAGS

/-- One loop candidate: `f"{p} {t}".strip()` glued into the tweet shape. -/
def tweetCand (p t source url : String) : String :=
  tweetText ⟨pyStripL (p.data ++ (' ' :: t.data))⟩ source url

/-- Python `str.split()`: split on whitespace runs, no empty words. -/
def splitWsAux : List Char → List Char → List (List Char)
  | [], acc => if acc = [] then [] else [acc.reverse]
  | c :: rest, acc =>
    if isPyWs c then
      if acc = [] then splitWsAux rest [] else acc.reverse :: splitWsAux rest []
    else splitWsAux rest (c :: acc)

def splitWs (l : List Char) : List (List Char) := splitWsAux l []

/-- `" ".join(words)`. -/
def joinSp (ws : List (List Char)) : List Char := (ws.intersperse [' ']).flatten

/-- Longest prefix of the word list whose space-joined length plus the
3-character placeholder still fits the width. -/
def greedyWords (width : Nat) (curLen : Nat) : List (List Char) → List (List Char)
  | [] => []
  | w :: ws =>
    let l := if curLen = 0 then w.length else curLen + 1 + w.length
    if l + 3 ≤ width then w :: greedyWords width l ws else []

/-- Modelled from the spec: `textwrap.shorten(title, width=200,
placeholder="...")` — the Python standard library collaborator of
`build_tweet`'s fallback ("shorten the title to a fixed maximum width with an
ellipsis placeholder", §4.3).  Whitespace is collapsed
(`" ".join(text.split())`) and the collapsed text is returned whenever it fits
the width — exactly CPython's behaviour.  The over-width branch keeps whole
words greedily and appends the placeholder (CPython's `TextWrapper` machinery
with its long-word breaking is simplified here; no claim below depends on that
branch's exact output, only on it being a fixed function of the title). -/
def pyShorten (t : String) (width : Nat) : String :=
  let ws := splitWs t.data
  let collapsed := joinSp ws
  if collapsed.length ≤ width then ⟨collapsed⟩
  else
    match greedyWords width 0 ws with
    | [] => "..."
    | kept => ⟨joinSp kept ++ "...".data⟩

/-- `build_tweet` from `src/bot.py`: first candidate (unprefixed title, then
each reword prefix) that fits 280 characters; otherwise the shortened-title
fallback, which is not re-checked against the budget. -/
def build_tweet (title source url : String) : String :=
  ((("" :: REWORD_PREFIXES).map (fun p => tweetCand p (clean_title title) source url)).find?
      (fun s => s.length ≤ 280)).getD
    (tweetText (pyShorten (clean_title title) 200) source url)

/-! ## Image resolver (`extract_image_url`) -/

structure MediaRef where
  url : Option String
deriving DecidableEq

structure LinkRef where
  rel : Option String
  /-- the `type` key of the link dict -/
  ltype : Option String
  href : Option String
deriving DecidableEq

structure ContentRef where
  value : Option String
deriving DecidableEq

/-- A feedparser entry, with exactly the keys `src/bot.py` reads. -/
structure Entry where
  title : Option String
  link : Option String
  media_content : Option (List MediaRef)
  links : List LinkRef
  media_thumbnail : Option (List MediaRef)
  content : Option (List ContentRef)
  summary : Option String
deriving DecidableEq

/-- `([^\"]+)\"` at the front of the list: the maximal non-quote run, which
must be non-empty and followed by the closing quote. -/
def quoteCapture (l : List Char) : Option (List Char) :=
  if l.takeWhile (· ≠ '"') = [] then none
  else if l.drop (l.takeWhile (· ≠ '"')).length = [] then none
  else some (l.takeWhile (· ≠ '"'))

/-- `src="([^\"]+)"` matched at this exact position. -/
def srcCaptureAt (l : List Char) : Option (List Char) :=
  if ("src=\"".data).isPrefixOf l then quoteCapture (l.drop 5) else none

/-- Backtracking of the greedy `[^>]+`: try the largest number of consumed
characters first, going down to one. -/
def imgGreedy (rest : List Char) : Nat → Option (List Char)
  | 0 => none
  | k + 1 =>
    match srcCaptureAt (rest.drop (k + 1)) with
    | some cap => some cap
    | none => imgGreedy rest k

/-- `<img[^>]+src="([^\"]+)"` matched at the head of the list. -/
def imgMatchAt (l : List Char) : Option (List Char) :=
  if ("<img".data).isPrefixOf l then
    let rest := l.drop 4
    imgGreedy rest (rest.takeWhile (· ≠ '>')).length
  else none

/-- `re.search(r'<img[^>]+src="([^\"]+)"', html)`: leftmost match, group 1. -/
def findImgSrc : List Char → Option String
  | [] => none
  | c :: rest =>
    match imgMatchAt (c :: rest) with
    | some cap => some ⟨cap⟩
    | none => findImgSrc rest

/-- Source 1: `media_content`, first entry's `url`, if truthy. -/
def imgFromMediaContent (e : Entry) : Option String :=
  match (e.media_content.getD []).head? with
  | some m0 => if (m0.url.getD "") = "" then none else m0.url
  | none => none

/-- Source 2's guard: the first link with `rel == "enclosure"` and `"image"`
in its type.  The source returns this link's `href` unconditionally. -/
def enclosureLink (e : Entry) : Option LinkRef :=
  e.links.find? (fun l => l.rel = some "enclosure" ∧ containsSub (l.ltype.getD "").data "image".data)

/-- Source 3: `media_thumbnail`, first entry's `url`, if truthy. -/
def imgFromThumb (e : Entry) : Option String :=
  match (e.media_thumbnail.getD []).head? with
  | some m0 => if (m0.url.getD "") = "" then none else m0.url
  | none => none

/-- Source 4: first `<img src>` of the first content block's HTML. -/
def imgFromContent (e : Entry) : Option String :=
  match (e.content.getD []).head? with
  | some c0 => findImgSrc (c0.value.getD "").data
  | none => none

/-- Source 5: first `<img src>` of the summary. -/
def imgFromSummary (e : Entry) : Option String :=
  findImgSrc (e.summary.getD "").data

/-- `extract_image_url` from `src/bot.py`.  Note the asymmetry faithfully kept
from the source: sources 1 and 3 fall through when their URL is missing or
empty, but a matching enclosure link causes an immediate `return
link.get("href")`, whatever that value is. -/
def extract_image_url (e : Entry) : Option String :=
  match imgFromMediaContent e with
  | some u => some u
  | none =>
    match enclosureLink e with
    | some l => l.href
    | none =>
      match imgFromThumb e with
      | some u => some u
      | none =>
        match imgFromContent e with
        | some u => some u
        | none => imgFromSummary e

/-! ## Seen-set store (`load_seen` / `save_seen`)

The file system is modelled by `Option String`: `none` is "no file exists",
`some c` is a file with content `c`.  Python's text mode reads with universal
newlines, so a line break is `\n`, `\r\n` or `\r`. -/

/-- Universal-newline translation of text-mode reading: `\r\n` and a lone
`\r` both become `\n`. -/
def normNl : List Char → List Char
  | [] => []
  | '\r' :: '\n' :: rest => '\n' :: normNl rest
  | '\r' :: rest => '\n' :: normNl rest
  | c :: rest => c :: normNl rest

/-- Split at `\n`, separators dropped (they would be `strip`ped anyway). -/
def splitNl : List Char → List (List Char)
  | [] => [[]]
  | c :: rest =>
    if c = '\n' then [] :: splitNl rest
    else
      match splitNl rest with
      | [] => [[c]]
      | l :: ls => (c :: l) :: ls

/-- File content to lines, as Python's universal-newline line iteration
produces them (up to the trailing separator, which `strip` removes). -/
def splitLinesU (l : List Char) : List (List Char) := splitNl (normNl l)

/-- `load_seen` from `src/bot.py`: empty set when the file is missing,
otherwise the set of stripped non-blank lines.  A Python `set` is modelled as
a duplicate-free list, observed only through membership and sorted
iteration. -/
def load_seen (file : Option String) : List String :=
  match file with
  | none => []
  | some c =>
    (((((splitLinesU c.data).map pyStripL).filter (fun l => l ≠ [])).map
      (fun l => (⟨l⟩ : String)))).dedup

/-- `save_seen` from `src/bot.py`: the written file content — one fingerprint
per line, sorted (the elements are pairwise distinct, so any sort agrees with
Python's `sorted`). -/
def save_seen (seen : List String) : String :=
  ⟨((List.insertionSort (· ≤ ·) seen).map (fun s => s.data ++ ['\n'])).flatten⟩

/-! ## The run pipeline (`run_bot`) -/

def MAX_POSTS_PER_RUN : Nat := 4

def POST_IMAGES : Bool := true

/-- The two effectful collaborators of an item step, as pure functions:
`pub text media_ids` is `True` iff `client.create_tweet` returns (a raised
exception is `False`); `upload u` is the media id `upload_image_to_x`
returns, already `none` on any of its caught failures. -/
structure Collab where
  pub : String → Option (List String) → Bool
  upload : String → Option String

/-- One parsed feed: its URL, the optional feed title, and its entries. -/
structure Feed where
  furl : String
  ftitle : Option String
  entries : List Entry
deriving DecidableEq

/-- Observable events of a run: a feed fetch (`feedparser.parse`) and a
publish attempt with its fingerprint, text, and outcome. -/
inductive Event where
  | fetch (furl : String)
  | attempt (fp text : String) (success : Bool)
deriving DecidableEq

structure BotState where
  seen : List String
  posted : Nat
deriving DecidableEq

/-- `(entry.get("title") or "").strip()`. -/
def entryTitle (e : Entry) : String := pyStripS (e.title.getD "")

/-- `(entry.get("link") or "").strip()`. -/
def entryLink (e : Entry) : String := pyStripS (e.link.getD "")

def entryFp (e : Entry) : String := item_hash (entryTitle e) (entryLink e)

def entryText (source : String) (e : Entry) : String :=
  build_tweet (entryTitle e) source (entryLink e)

/-- `media_ids` for an entry: when `POST_IMAGES`, a truthy extracted image URL
uploaded to a truthy media id gives `[mid]`, else `None`. -/
def mediaIds (c : Collab) (e : Entry) : Option (List String) :=
  if POST_IMAGES then
    match extract_image_url e with
    | some img =>
      if img = "" then none
      else
        match c.upload img with
        | some mid => if mid = "" then none else some [mid]
        | none => none
    | none => none
  else none

/-- The body of the item loop for one entry: the `continue` guards, the
dedupe check, and the publish attempt with its success/failure bookkeeping. -/
def stepItem (c : Collab) (source : String) (st : BotState) (e : Entry) :
    BotState × List Event :=
  if entryTitle e = "" ∨ entryLink e = "" then (st, [])
  else if looks_like_patriots (entryTitle e) = false then (st, [])
  else if entryFp e ∈ st.seen then (st, [])
  else if c.pub (entryText source e) (mediaIds c e) then
    (⟨st.seen.insert (entryFp e), st.posted + 1⟩,
     [Event.attempt (entryFp e) (entryText source e) true])
  else (st, [Event.attempt (entryFp e) (entryText source e) false])

/-- The item loop, with its cap check at the top of each iteration. -/
def runItems (c : Collab) (source : String) (st : BotState) :
    List Entry → BotState × List Event
  | [] => (st, [])
  | e :: rest =>
    if MAX_POSTS_PER_RUN ≤ st.posted then (st, [])
    else
      let s1 := stepItem c source st e
      let s2 := runItems c source s1.1 rest
      (s2.1, s1.2 ++ s2.2)

/-- The feed loop: cap check, fetch, `source = parsed.feed.get("title",
"Source")`, then the first 12 entries. -/
def runFeeds (c : Collab) (st : BotState) : List Feed → BotState × List Event
  | [] => (st, [])
  | f :: rest =>
    if MAX_POSTS_PER_RUN ≤ st.posted then (st, [])
    else
      let s1 := runItems c (f.ftitle.getD "Source") st (f.entries.take 12)
      let s2 := runFeeds c s1.1 rest
      (s2.1, Event.fetch f.furl :: (s1.2 ++ s2.2))

structure RunResult where
  state : BotState
  events : List Event
  saved : String
deriving DecidableEq

/-- `run_bot` from `src/bot.py`: load the seen-set, run the feed loop from a
zero counter, save the seen-set once at the end. -/
def run_bot (c : Collab) (feeds : List Feed) (file : Option String) : RunResult :=
  let s := runFeeds c ⟨load_seen file, 0⟩ feeds
  ⟨s.1, s.2, save_seen s.1.seen⟩

/-- What the store needs of an element to survive a save/load cycle: non-empty,
free of line breaks, and invariant under `strip`.  Hex digests and loaded lines
both satisfy it. -/
def WfFp (s : String) : Prop :=
  s ≠ "" ∧ (∀ c ∈ s.data, c ≠ '\n' ∧ c ≠ '\r') ∧ pyStripL s.data = s.data

/-- The simplified composer that C9 claims `build_tweet` equals, written from
the claim's own words: return the unprefixed candidate
`"{cleanedTitle} — {source}\n{url}{tags}"` exactly when it fits the
280-character budget, else the shortened-title fallback; never consult the
reword prefixes. -/
def build_tweet_spec (title source url : String) : String :=
  if (tweetCand "" (clean_title title) source url).length ≤ 280 then
    tweetCand "" (clean_title title) source url
  else tweetText (pyShorten (clean_title title) 200) source url

/-- The five image sources of the spec's resolver contract, in priority
order, as the source computes them (source 2 is the enclosure link's `href`).
-/
def sourcesList (e : Entry) : List (Option String) :=
  [imgFromMediaContent e, (enclosureLink e).bind (fun l => l.href),
   imgFromThumb e, imgFromContent e, imgFromSummary e]

/-- The resolver the C6 claim describes: the first source yielding a
non-empty URL, `none` when all five fail. -/
def firstNonEmptyStr : List (Option String) → Option String
  | [] => none
  | none :: rest => firstNonEmptyStr rest
  | some u :: rest => if u = "" then firstNonEmptyStr rest else some u

/-- C6's counterexample entry: an enclosure link of image type whose `href`
is the empty string, and a summary that does contain an `<img src>`. -/
def eC6 : Entry :=
  ⟨some "t", some "l", none, [⟨some "enclosure", some "image/jpeg", some ""⟩],
   none, none, some "<img alt src=\"http://pic\">"⟩

/-- 1 for a successful publish event, 0 otherwise. -/
def succOf : Event → Nat
  | Event.fetch _ => 0
  | Event.attempt _ _ s => if s then 1 else 0

/-- Number of successful publishes among the events. -/
def succCount : List Event → Nat
  | [] => 0
  | ev :: rest => succOf ev + succCount rest

/-- Fingerprints of the successful publishes, in order. -/
def successFps : List Event → List String
  | [] => []
  | Event.fetch _ :: rest => successFps rest
  | Event.attempt fp _ s :: rest =>
    if s then fp :: successFps rest else successFps rest

/-- `capOK n evs`: every event of `evs` is emitted while the number of
successes so far (starting from `n`) is still below the per-run cap — i.e.
once the cap is reached nothing further (no feed fetch, no item attempt)
happens. -/
def capOK : Nat → List Event → Prop
  | _, [] => True
  | n, ev :: rest => n < MAX_POSTS_PER_RUN ∧ capOK (n + succOf ev) rest

/-- C3's relevant, never-seen item. -/
def entryA : Entry :=
  ⟨some "Patriots sign new TE", some "https://x.com/a", none, [], none, none, none⟩

/-- C3's irrelevant item. -/
def entryB : Entry :=
  ⟨some "Celtics win opener", some "https://y.com/b", none, [], none, none, none⟩

/-- C3's collaborators: publishing always succeeds, no image upload. -/
def c3Collab : Collab := ⟨fun _ _ => true, fun _ => none⟩

/-- C3's fixed feed data: one feed with the single relevant item, one feed
with the single irrelevant item. -/
def c3Feeds : List Feed :=
  [⟨"https://feed1", some "Pats Pulpit", [entryA]⟩,
   ⟨"https://feed2", some "NESN", [entryB]⟩]

def c3Run1 : RunResult := run_bot c3Collab c3Feeds none

def c3Run2 : RunResult := run_bot c3Collab c3Feeds (some c3Run1.saved)

/-- C2's witness collaborators: the publish call always raises. -/
def c2Collab : Collab := ⟨fun _ _ => false, fun _ => none⟩

def c2Feeds : List Feed := [⟨"https://feed1", some "S", [entryA]⟩]

def c2Run1 : RunResult := run_bot c2Collab c2Feeds none

/-! ## Generic list lemmas used throughout -/

theorem takeWhile_append_stop {α : Type} (p : α → Bool) (d : α) (a b : List α)
    (hd : p d = false) : (a ++ d :: b).takeWhile p = a.takeWhile p := by
  induction a with
  | nil => simp [List.takeWhile_cons, hd]
  | cons x a ih => by_cases hx : p x <;> simp [List.takeWhile_cons, hx, ih]

theorem dropWhile_append_stop {α : Type} (p : α → Bool) (d : α) (a b : List α)
    (hd : p d = false) : (a ++ d :: b).dropWhile p = a.dropWhile p ++ d :: b := by
  induction a with
  | nil => simp [List.dropWhile_cons, hd]
  | cons x a ih => by_cases hx : p x <;> simp [List.dropWhile_cons, hx, ih]

theorem takeWhile_append_of_stop {α : Type} (p : α → Bool) (a b : List α)
    (h : a.dropWhile p ≠ []) : (a ++ b).takeWhile p = a.takeWhile p := by
  induction a with
  | nil => simp at h
  | cons x a ih =>
    by_cases hx : p x
    · simp only [List.dropWhile_cons, hx, if_true] at h
      simp [List.takeWhile_cons, hx, ih h]
    · simp [List.takeWhile_cons, hx]

theorem dropWhile_append_of_stop {α : Type} (p : α → Bool) (a b : List α)
    (h : a.dropWhile p ≠ []) : (a ++ b).dropWhile p = a.dropWhile p ++ b := by
  induction a with
  | nil => simp at h
  | cons x a ih =>
    by_cases hx : p x
    · simp only [List.dropWhile_cons, hx, if_true] at h
      simp [List.dropWhile_cons, hx, ih h]
    · simp [List.dropWhile_cons, hx]

theorem containsSub_iff (hay pat : List Char) :
    containsSub hay pat = true ↔ pat <:+: hay := by
  induction hay with
  | nil =>
    rw [containsSub]
    simp [List.isPrefixOf_iff_prefix]
  | cons c t ih =>
    rw [containsSub]
    simp [List.isPrefixOf_iff_prefix, ih, List.infix_cons_iff]

/-! ## C8: the relevance filter -/

/-- **C8.** `looks_like_patriots` is a total Boolean function; it returns
`false` on the empty (or missing, i.e. defaulted-to-empty) title, and `true`
exactly when some keyword of the fixed list occurs as a substring of the
lowercased title; in particular it accepts "Patriots sign new TE" and rejects
"Celtics win opener" and `""`. -/
theorem claim_C8_relevance_filter :
    (∀ t : String, looks_like_patriots t = true ↔
      ∃ k ∈ KEYWORDS, k.data <:+: pyLowerL t.data) ∧
    looks_like_patriots "" = false ∧
    looks_like_patriots "Patriots sign new TE" = true ∧
    looks_like_patriots "Celtics win opener" = false := by
  refine ⟨fun t => ?_, by decide, by decide, by decide⟩
  simp [looks_like_patriots, List.any_eq_true, containsSub_iff]

/-! ## Stripping and line-splitting lemmas -/

theorem dropWhile_head_false {α : Type} {p : α → Bool} {l : List α} {x : α} {xs : List α}
    (h : l.dropWhile p = x :: xs) : p x = false := by
  induction l with
  | nil => simp at h
  | cons y l ih =>
    rw [List.dropWhile_cons] at h
    by_cases hy : p y
    · exact ih (by simpa [hy] using h)
    · simp only [hy, if_false] at h
      cases h
      simpa using hy

theorem dropWhile_eq_self_of_head {α : Type} {p : α → Bool} {l : List α}
    (h : ∀ x xs, l = x :: xs → p x = false) : l.dropWhile p = l := by
  cases l with
  | nil => rfl
  | cons x xs => simp [List.dropWhile_cons, h x xs rfl]

theorem dropWhile_idem {α : Type} (p : α → Bool) (l : List α) :
    (l.dropWhile p).dropWhile p = l.dropWhile p := by
  apply dropWhile_eq_self_of_head
  intro x xs h
  exact dropWhile_head_false h

theorem mem_pyStripL {c : Char} {l : List Char} (h : c ∈ pyStripL l) : c ∈ l := by
  unfold pyStripL at h
  rw [List.mem_reverse] at h
  have h1 := (List.dropWhile_suffix isPyWs).subset h
  rw [List.mem_reverse] at h1
  exact (List.dropWhile_suffix isPyWs).subset h1

theorem pyStripL_no_ws {l : List Char} (h : ∀ c ∈ l, isPyWs c = false) :
    pyStripL l = l := by
  unfold pyStripL
  have h1 : l.dropWhile isPyWs = l := by
    apply dropWhile_eq_self_of_head
    intro x xs hx
    exact h x (hx ▸ List.mem_cons_self x xs)
  rw [h1]
  have h2 : l.reverse.dropWhile isPyWs = l.reverse := by
    apply dropWhile_eq_self_of_head
    intro x xs hx
    exact h x (List.mem_reverse.mp (hx ▸ List.mem_cons_self x xs))
  rw [h2, List.reverse_reverse]

theorem pyStripL_idem (l : List Char) : pyStripL (pyStripL l) = pyStripL l := by
  unfold pyStripL
  set A := l.dropWhile isPyWs with hA
  set B := (A.reverse).dropWhile isPyWs with hB
  have hBrev : B.reverse.dropWhile isPyWs = B.reverse := by
    apply dropWhile_eq_self_of_head
    intro x xs hx
    have hx' : B.getLast? = some x := by
      rw [← List.head?_reverse, hx]; rfl
    have hBne : B ≠ [] := by
      intro hb
      rw [hb] at hx'
      simp at hx'
    obtain ⟨u, hu⟩ := List.dropWhile_suffix (l := A.reverse) isPyWs
    have hAx : A.reverse.getLast? = some x := by
      rw [← hu, List.getLast?_append, hx']
      rfl
    rw [List.getLast?_eq_head?_reverse, List.reverse_reverse] at hAx
    cases hAc : A with
    | nil => rw [hAc] at hAx; simp at hAx
    | cons a as =>
      rw [hAc] at hAx
      simp only [List.head?_cons, Option.some_inj] at hAx
      rw [← hAx]
      exact dropWhile_head_false (hA.symm.trans hAc)
  rw [hBrev, List.reverse_reverse, dropWhile_idem]

/-! Equations and structure of `normNl` and `splitNl`. -/

theorem normNl_cons_ne {c : Char} (l : List Char) (h : c ≠ '\r') :
    normNl (c :: l) = c :: normNl l := by
  simp [normNl, h]

theorem normNl_no_cr (l : List Char) : ∀ c ∈ normNl l, c ≠ '\r' := by
  induction l using normNl.induct with
  | case1 => simp [normNl]
  | case2 rest ih =>
    intro c hc
    rw [show normNl ('\r' :: '\n' :: rest) = '\n' :: normNl rest from rfl] at hc
    rcases List.mem_cons.mp hc with h | h
    · subst h; decide
    · exact ih c h
  | case3 rest h2 ih =>
    intro c hc
    have : normNl ('\r' :: rest) = '\n' :: normNl rest := by
      cases rest with
      | nil => rfl
      | cons d t =>
        by_cases hd : d = '\n'
        · exact absurd (by rw [hd]) (fun he => h2 t he)
        · simp [normNl, hd]
    rw [this] at hc
    rcases List.mem_cons.mp hc with h | h
    · subst h; decide
    · exact ih c h
  | case4 c rest h1 h2 ih =>
    intro x hx
    rw [normNl_cons_ne rest (fun he => h2 he)] at hx
    rcases List.mem_cons.mp hx with h | h
    · subst h; exact fun he => h2 he
    · exact ih x h

theorem normNl_of_no_cr {l : List Char} (h : ∀ c ∈ l, c ≠ '\r') : normNl l = l := by
  induction l with
  | nil => rfl
  | cons c t ih =>
    rw [normNl_cons_ne t (h c (List.mem_cons_self c t))]
    rw [ih (fun x hx => h x (List.mem_cons_of_mem c hx))]

theorem splitNl_ne_nil (l : List Char) : splitNl l ≠ [] := by
  induction l with
  | nil => simp [splitNl]
  | cons c t ih =>
    rw [splitNl]
    by_cases hc : c = '\n'
    · simp [hc]
    · simp only [hc, if_false]
      cases h : splitNl t with
      | nil => simp
      | cons a as => simp

theorem splitNl_pieces {z : List Char} {piece : List Char} (h : piece ∈ splitNl z) :
    ∀ c ∈ piece, c ≠ '\n' ∧ c ∈ z := by
  induction z generalizing piece with
  | nil =>
    rw [splitNl] at h
    simp at h
    subst h
    simp
  | cons d t ih =>
    rw [splitNl] at h
    by_cases hd : d = '\n'
    · simp only [hd, if_true] at h
      rcases List.mem_cons.mp h with h1 | h1
      · subst h1; simp
      · intro c hc
        obtain ⟨e1, e2⟩ := ih h1 c hc
        exact ⟨e1, List.mem_cons_of_mem _ e2⟩
    · simp only [hd, if_false] at h
      cases ht : splitNl t with
      | nil => exact absurd ht (splitNl_ne_nil t)
      | cons a as =>
        rw [ht] at h
        rcases List.mem_cons.mp h with h1 | h1
        · subst h1
          intro c hc
          rcases List.mem_cons.mp hc with h2 | h2
          · rw [h2]
            exact ⟨hd, List.mem_cons_self _ t⟩
          · obtain ⟨e1, e2⟩ := ih (ht ▸ List.mem_cons_self a as) c h2
            exact ⟨e1, List.mem_cons_of_mem _ e2⟩
        · intro c hc
          obtain ⟨e1, e2⟩ := ih (ht ▸ List.mem_cons_of_mem a h1) c hc
          exact ⟨e1, List.mem_cons_of_mem _ e2⟩

theorem splitNl_append_line {s : List Char} (t : List Char)
    (hs : ∀ c ∈ s, c ≠ '\n') : splitNl (s ++ '\n' :: t) = s :: splitNl t := by
  induction s with
  | nil => simp [splitNl]
  | cons c s ih =>
    have hc : c ≠ '\n' := hs c (List.mem_cons_self c s)
    rw [List.cons_append, splitNl]
    simp only [hc, if_false]
    rw [ih (fun x hx => hs x (List.mem_cons_of_mem c hx))]

/-! ## Well-formed fingerprints and the seen-store roundtrip -/

theorem getD_hexDigits_mem (i : Nat) : hexDigits.getD i '0' ∈ hexDigits := by
  by_cases h : i < hexDigits.length
  · rw [List.getD_eq_getElem hexDigits '0' h]
    exact List.getElem_mem h
  · rw [List.getD_eq_default hexDigits '0' (Nat.le_of_not_lt h)]
    decide

theorem mem_byteHex {c : Char} {b : Nat} (h : c ∈ byteHex b) : c ∈ hexDigits := by
  rcases List.mem_cons.mp h with h1 | h1
  · exact h1 ▸ getD_hexDigits_mem _
  · rcases List.mem_cons.mp h1 with h2 | h2
    · exact h2 ▸ getD_hexDigits_mem _
    · simp at h2

theorem sha256hex_chars {c : Char} {m : List Nat} (h : c ∈ (sha256hex m).data) :
    c ∈ hexDigits := by
  rw [show (sha256hex m).data = ((sha256Bytes m).map byteHex).flatten from rfl] at h
  obtain ⟨x, hx, hcx⟩ := List.mem_flatten.mp h
  obtain ⟨b, _, hb⟩ := List.mem_map.mp hx
  exact mem_byteHex (hb ▸ hcx)

theorem compress_length (h b : List Nat) : (compress h b).length = 8 := by
  simp [compress]

theorem processBlocks_length (bs : List (List Nat)) :
    ∀ h : List Nat, h.length = 8 → (processBlocks h bs).length = 8 := by
  induction bs with
  | nil => intro h hh; simpa [processBlocks] using hh
  | cons b bs ih =>
    intro h hh
    rw [processBlocks]
    exact ih _ (compress_length h b)

theorem sha256Words_length (m : List Nat) : (sha256Words m).length = 8 :=
  processBlocks_length _ shaInit (by decide)


theorem sha256Bytes_ne_nil (m : List Nat) : sha256Bytes m ≠ [] := by
  have h8 := sha256Words_length m
  cases hw : sha256Words m with
  | nil => rw [hw] at h8; simp at h8
  | cons w ws =>
    intro he
    have he2 : ((sha256Words m).map wordBytes).flatten = [] := he
    rw [hw, List.flatten_eq_nil_iff] at he2
    have hb : wordBytes w = [] :=
      he2 _ (List.mem_map_of_mem wordBytes (List.mem_cons_self w ws))
    simp [wordBytes] at hb

theorem sha256hex_ne_empty (m : List Nat) : sha256hex m ≠ "" := by
  intro h
  have hd : ((sha256Bytes m).map byteHex).flatten = ([] : List Char) :=
    congrArg String.data h
  rw [List.flatten_eq_nil_iff] at hd
  cases hb : sha256Bytes m with
  | nil => exact sha256Bytes_ne_nil m hb
  | cons b bs =>
    have hbh : byteHex b = [] := by
      apply hd
      rw [hb]
      exact List.mem_map_of_mem byteHex (List.mem_cons_self b bs)
    simp [byteHex] at hbh

theorem hexDigits_not_nl : ∀ c ∈ hexDigits, c ≠ '\n' ∧ c ≠ '\r' := by decide

theorem hexDigits_not_ws : ∀ c ∈ hexDigits, isPyWs c = false := by decide

theorem wfFp_sha256hex (m : List Nat) : WfFp (sha256hex m) := by
  refine ⟨sha256hex_ne_empty m, fun c hc => hexDigits_not_nl c (sha256hex_chars hc), ?_⟩
  exact pyStripL_no_ws (fun c hc => hexDigits_not_ws c (sha256hex_chars hc))

theorem wfFp_item_hash (t u : String) : WfFp (item_hash t u) := wfFp_sha256hex _

theorem load_elems_wf {file : Option String} {s : String}
    (h : s ∈ load_seen file) : WfFp s := by
  cases file with
  | none => simp [load_seen] at h
  | some c =>
    rw [load_seen, List.mem_dedup] at h
    obtain ⟨l, hl, rfl⟩ := List.mem_map.mp h
    rw [List.mem_filter] at hl
    obtain ⟨hl1, hl2⟩ := hl
    obtain ⟨l0, hl0, rfl⟩ := List.mem_map.mp hl1
    have hpieces := splitNl_pieces (z := normNl c.data) hl0
    refine ⟨?_, fun x hx => ?_, pyStripL_idem l0⟩
    · intro he
      have hde : pyStripL l0 = [] := congrArg String.data he
      have hne : pyStripL l0 ≠ [] := by simpa using hl2
      exact hne hde
    · have hx0 : x ∈ l0 := mem_pyStripL hx
      obtain ⟨hnl, hmem⟩ := hpieces x hx0
      exact ⟨hnl, normNl_no_cr c.data x hmem⟩

theorem splitNl_flatten (L : List String) (h : ∀ s ∈ L, ∀ c ∈ s.data, c ≠ '\n') :
    splitNl ((L.map (fun s => s.data ++ ['\n'])).flatten) = L.map String.data ++ [[]] := by
  induction L with
  | nil => simp [splitNl]
  | cons s L ih =>
    rw [List.map_cons, List.flatten_cons, List.append_assoc, List.singleton_append,
      splitNl_append_line _ (h s (List.mem_cons_self s L))]
    rw [ih (fun x hx => h x (List.mem_cons_of_mem s hx))]
    rfl

/-- The exact list `load_seen` recovers from a saved well-formed,
duplicate-free seen list: its insertion sort. -/
theorem load_save_eq (l : List String) (hnd : l.Nodup) (hwf : ∀ s ∈ l, WfFp s) :
    load_seen (some (save_seen l)) = List.insertionSort (· ≤ ·) l := by
  have hLwf : ∀ s ∈ List.insertionSort (· ≤ ·) l, WfFp s := fun s hs =>
    hwf s ((List.perm_insertionSort (· ≤ ·) l).mem_iff.mp hs)
  have hdata : (save_seen l).data =
      ((List.insertionSort (· ≤ ·) l).map (fun s => s.data ++ ['\n'])).flatten := rfl
  have hnocr : ∀ c ∈ (save_seen l).data, c ≠ '\r' := by
    rw [hdata]
    intro c hc
    obtain ⟨x, hx, hcx⟩ := List.mem_flatten.mp hc
    obtain ⟨s, hs, rfl⟩ := List.mem_map.mp hx
    rcases List.mem_append.mp hcx with h1 | h1
    · exact ((hLwf s hs).2.1 c h1).2
    · simp only [List.mem_singleton] at h1
      rw [h1]; decide
  have hsplit : splitLinesU (save_seen l).data =
      (List.insertionSort (· ≤ ·) l).map String.data ++ [[]] := by
    rw [splitLinesU, normNl_of_no_cr hnocr, hdata]
    exact splitNl_flatten _ (fun s hs c hc => ((hLwf s hs).2.1 c hc).1)
  rw [load_seen, hsplit]
  have hmapstrip : ((List.insertionSort (· ≤ ·) l).map String.data ++ [[]]).map pyStripL =
      (List.insertionSort (· ≤ ·) l).map String.data ++ [[]] := by
    rw [List.map_append, List.map_map]
    have h1 : (List.insertionSort (· ≤ ·) l).map (pyStripL ∘ String.data) =
        (List.insertionSort (· ≤ ·) l).map String.data :=
      List.map_congr_left (fun s hs => (hLwf s hs).2.2)
    rw [h1]
    rfl
  rw [hmapstrip]
  have hfilter : (((List.insertionSort (· ≤ ·) l).map String.data ++ [[]]).filter
      (fun x => x ≠ [])) = (List.insertionSort (· ≤ ·) l).map String.data := by
    rw [List.filter_append]
    have h1 : ((List.insertionSort (· ≤ ·) l).map String.data).filter (fun x => x ≠ []) =
        (List.insertionSort (· ≤ ·) l).map String.data := by
      apply List.filter_eq_self.mpr
      intro a ha
      obtain ⟨s, hs, rfl⟩ := List.mem_map.mp ha
      have hne : s.data ≠ [] := fun he => (hLwf s hs).1 (String.ext he)
      simpa using hne
    rw [h1]
    simp
  rw [hfilter, List.map_map]
  rw [show ((fun l => (⟨l⟩ : String)) ∘ String.data) = id from funext fun s => rfl,
    List.map_id]
  exact List.dedup_eq_self.mpr ((List.perm_insertionSort (· ≤ ·) l).nodup_iff.mpr hnd)

theorem load_save_perm (l : List String) (hnd : l.Nodup) (hwf : ∀ s ∈ l, WfFp s) :
    (load_seen (some (save_seen l))).Perm l := by
  rw [load_save_eq l hnd hwf]
  exact List.perm_insertionSort (· ≤ ·) l

theorem save_seen_lines (l : List String) (hwf : ∀ s ∈ l, WfFp s) :
    splitLinesU (save_seen l).data =
      (List.insertionSort (· ≤ ·) l).map String.data ++ [[]] := by
  have hLwf : ∀ s ∈ List.insertionSort (· ≤ ·) l, WfFp s := fun s hs =>
    hwf s ((List.perm_insertionSort (· ≤ ·) l).mem_iff.mp hs)
  have hdata : (save_seen l).data =
      ((List.insertionSort (· ≤ ·) l).map (fun s => s.data ++ ['\n'])).flatten := rfl
  have hnocr : ∀ c ∈ (save_seen l).data, c ≠ '\r' := by
    rw [hdata]
    intro c hc
    obtain ⟨x, hx, hcx⟩ := List.mem_flatten.mp hc
    obtain ⟨s, hs, rfl⟩ := List.mem_map.mp hx
    rcases List.mem_append.mp hcx with h1 | h1
    · exact ((hLwf s hs).2.1 c h1).2
    · simp only [List.mem_singleton] at h1
      rw [h1]; decide
  rw [splitLinesU, normNl_of_no_cr hnocr, hdata]
  exact splitNl_flatten _ (fun s hs c hc => ((hLwf s hs).2.1 c hc).1)

/-! ## C7: the seen-set store -/

/-- **C7.** For every duplicate-free list of non-empty whitespace-free
fingerprints, loading right after saving returns exactly that set (as a
permutation of the duplicate-free list); the saved file is one fingerprint
per line in sorted order (its line split is exactly the sorted fingerprints
followed by the empty piece after the final newline); loading with no
persisted state gives the empty set; and blank lines are ignored. -/
theorem claim_C7_seen_store (l : List String) (hnd : l.Nodup)
    (hwf : ∀ s ∈ l, s ≠ "" ∧ ∀ c ∈ s.data, isPyWs c = false) :
    (load_seen (some (save_seen l))).Perm l ∧
    load_seen none = [] ∧
    splitLinesU (save_seen l).data =
      (List.insertionSort (· ≤ ·) l).map String.data ++ [[]] ∧
    List.Sorted (· ≤ ·) (List.insertionSort (· ≤ ·) l) ∧
    (∀ c : String, load_seen (some ("\n" ++ c)) = load_seen (some c)) := by
  have hwf' : ∀ s ∈ l, WfFp s := by
    intro s hs
    obtain ⟨h1, h2⟩ := hwf s hs
    refine ⟨h1, fun c hc => ?_, pyStripL_no_ws (h2)⟩
    constructor
    · intro he
      have := h2 c hc
      rw [he] at this
      simp [isPyWs] at this
    · intro he
      have := h2 c hc
      rw [he] at this
      simp [isPyWs] at this
  refine ⟨load_save_perm l hnd hwf', rfl, save_seen_lines l hwf',
    List.sorted_insertionSort (· ≤ ·) l, fun c => ?_⟩
  have h1 : ("\n" ++ c).data = '\n' :: c.data := rfl
  rw [load_seen, load_seen, h1, splitLinesU,
    normNl_cons_ne c.data (by decide), show splitNl ('\n' :: normNl c.data) =
      [] :: splitNl (normNl c.data) by simp [splitNl]]
  rfl

theorem claim_C7_seen_store_witness :
    (load_seen (some (save_seen ["b", "a"]))).Perm ["b", "a"] ∧
    load_seen none = [] ∧
    splitLinesU (save_seen ["b", "a"]).data =
      (List.insertionSort (· ≤ ·) ["b", "a"]).map String.data ++ [[]] ∧
    List.Sorted (· ≤ ·) (List.insertionSort (· ≤ ·) ["b", "a"]) ∧
    (∀ c : String, load_seen (some ("\n" ++ c)) = load_seen (some c)) :=
  claim_C7_seen_store ["b", "a"] (by decide) (by decide)

/-! ## Ends of stripped strings, and the shape of `clean_title` output -/

theorem pyStripL_noLastWs (l : List Char) :
    ∀ x, (pyStripL l).getLast? = some x → isPyWs x = false := by
  intro x hx
  unfold pyStripL at hx
  rw [List.getLast?_eq_head?_reverse, List.reverse_reverse] at hx
  cases hB : (l.dropWhile isPyWs).reverse.dropWhile isPyWs with
  | nil => rw [hB] at hx; simp at hx
  | cons b bs =>
    rw [hB] at hx
    simp only [List.head?_cons, Option.some_inj] at hx
    rw [← hx]
    exact dropWhile_head_false hB

theorem pyStripL_noHeadWs (l : List Char) :
    ∀ x xs, pyStripL l = x :: xs → isPyWs x = false := by
  intro x xs hx
  have hx' : (pyStripL l).head? = some x := by rw [hx]; rfl
  unfold pyStripL at hx'
  rw [List.head?_reverse] at hx'
  set A := l.dropWhile isPyWs with hA
  set B := (A.reverse).dropWhile isPyWs with hB
  have hBne : B ≠ [] := by
    intro hb
    rw [hb] at hx'
    simp at hx'
  obtain ⟨u, hu⟩ := List.dropWhile_suffix (l := A.reverse) isPyWs
  have hAx : A.reverse.getLast? = some x := by
    rw [← hu, List.getLast?_append]
    cases hgl : B.getLast? with
    | none => exact absurd (List.getLast?_eq_none_iff.mp hgl) hBne
    | some y =>
      rw [hgl] at hx'
      rw [hx']
      rfl
  rw [List.getLast?_eq_head?_reverse, List.reverse_reverse] at hAx
  cases hAc : A with
  | nil => rw [hAc] at hAx; simp at hAx
  | cons a as =>
    rw [hAc] at hAx
    simp only [List.head?_cons, Option.some_inj] at hAx
    rw [← hAx]
    exact dropWhile_head_false (hA.symm.trans hAc)

theorem pyStripL_eq_self {l : List Char}
    (h1 : ∀ x xs, l = x :: xs → isPyWs x = false)
    (h2 : ∀ x, l.getLast? = some x → isPyWs x = false) : pyStripL l = l := by
  unfold pyStripL
  rw [dropWhile_eq_self_of_head h1]
  have : l.reverse.dropWhile isPyWs = l.reverse := by
    apply dropWhile_eq_self_of_head
    intro x xs hx
    apply h2
    rw [List.getLast?_eq_head?_reverse, hx]
    rfl
  rw [this, List.reverse_reverse]

theorem pyStripL_cons_ws {c : Char} (l : List Char) (hc : isPyWs c = true) :
    pyStripL (c :: l) = pyStripL l := by
  unfold pyStripL
  rw [List.dropWhile_cons, if_pos hc]

theorem dashSuffixAt_cons_ws {c : Char} (l : List Char) (hc : isPyWs c = true) :
    dashSuffixAt (c :: l) = dashSuffixAt l := by
  unfold dashSuffixAt
  rw [List.dropWhile_cons, if_pos hc]

/-- `dropDashSuffix` keeps a prefix of its input. -/
theorem dropDashSuffix_prefix (l : List Char) : dropDashSuffix l <+: l := by
  induction l with
  | nil => simp [dropDashSuffix]
  | cons c rest ih =>
    rw [dropDashSuffix]
    by_cases h : dashSuffixAt (c :: rest)
    · simp [h]
    · simp only [h, if_false]
      exact (List.prefix_cons_inj c).mpr ih

theorem dropDashSuffix_noLastWs (l : List Char)
    (h : ∀ x, l.getLast? = some x → isPyWs x = false) :
    ∀ x, (dropDashSuffix l).getLast? = some x → isPyWs x = false := by
  induction l with
  | nil => intro x hx; rw [dropDashSuffix] at hx; simp at hx
  | cons c rest ih =>
    intro x hx
    rw [dropDashSuffix] at hx
    by_cases hm : dashSuffixAt (c :: rest)
    · rw [if_pos hm] at hx; simp at hx
    · rw [if_neg hm] at hx
      cases hd : dropDashSuffix rest with
      | nil =>
        rw [hd] at hx
        simp only [List.getLast?_singleton, Option.some_inj] at hx
        subst hx
        cases rest with
        | nil => exact h c (by rfl)
        | cons d t =>
          by_cases hw : isPyWs c
          · exfalso
            apply hm
            rw [dashSuffixAt_cons_ws _ hw]
            rw [dropDashSuffix] at hd
            by_cases hna : dashSuffixAt (d :: t)
            · exact hna
            · rw [if_neg hna] at hd
              simp at hd
          · simpa using hw
      | cons y ys =>
        rw [hd, List.getLast?_cons_cons] at hx
        have hrest : ∀ z, rest.getLast? = some z → isPyWs z = false := by
          intro z hz
          apply h z
          cases rest with
          | nil => simp at hz
          | cons d t => rw [List.getLast?_cons_cons]; exact hz
        have := ih hrest x
        rw [hd] at this
        cases ys with
        | nil => exact this (by simpa using hx)
        | cons y2 ys2 => exact this (by rw [List.getLast?_cons_cons]; exact hx)

/-! ## C9 and C1: the text composer -/

theorem clean_title_noHeadWs (t : String) :
    ∀ x xs, (clean_title t).data = x :: xs → isPyWs x = false := by
  intro x xs hx
  have hd : (clean_title t).data = dropDashSuffix (pyStripL t.data) := rfl
  rw [hd] at hx
  obtain ⟨u, hu⟩ := dropDashSuffix_prefix (pyStripL t.data)
  rw [hx] at hu
  exact pyStripL_noHeadWs t.data x (xs ++ u) (by rw [← hu, List.cons_append])

theorem clean_title_noLastWs (t : String) :
    ∀ x, (clean_title t).data.getLast? = some x → isPyWs x = false := by
  intro x hx
  have hd : (clean_title t).data = dropDashSuffix (pyStripL t.data) := rfl
  rw [hd] at hx
  exact dropDashSuffix_noLastWs (pyStripL t.data) (pyStripL_noLastWs t.data) x hx

theorem clean_title_strip_inv (t : String) :
    pyStripL (clean_title t).data = (clean_title t).data :=
  pyStripL_eq_self (clean_title_noHeadWs t) (clean_title_noLastWs t)

theorem tweetCand_empty (t source url : String) :
    tweetCand "" (clean_title t) source url =
      tweetText (clean_title t) source url := by
  unfold tweetCand
  congr 1
  apply String.ext
  show pyStripL ([] ++ ' ' :: (clean_title t).data) = (clean_title t).data
  rw [List.nil_append, pyStripL_cons_ws _ (by decide), clean_title_strip_inv t]

theorem tweetText_length (m source url : String) :
    (tweetText m source url).length = m.length + source.length + url.length + 19 := by
  have h3 : (" — " : String).length = 3 := rfl
  have h1 : ("\n" : String).length = 1 := rfl
  have h15 : DEFAULT_TAGS.length = 15 := rfl
  simp only [tweetText, String.length_append, h3, h1, h15]
  omega

theorem stripped_cand_eq (p : List Char) (d : List Char)
    (hph : ∀ x xs, p = x :: xs → isPyWs x = false)
    (hdl : ∀ x, d.getLast? = some x → isPyWs x = false)
    (hp : p ≠ []) (hd : d ≠ []) :
    pyStripL (p ++ ' ' :: d) = p ++ ' ' :: d := by
  apply pyStripL_eq_self
  · intro x xs hx
    cases p with
    | nil => exact absurd rfl hp
    | cons a as =>
      rw [List.cons_append] at hx
      injection hx with h1 h2
      rw [← h1]
      exact hph a as rfl
  · intro x hx
    rw [List.getLast?_append] at hx
    cases hde : d.getLast? with
    | none => exact absurd (List.getLast?_eq_none_iff.mp hde) hd
    | some y =>
      apply hdl x
      rw [hde]
      have : (' ' :: d).getLast? = some y := by
        cases d with
        | nil => simp at hde
        | cons e es => rw [List.getLast?_cons_cons]; exact hde
      rw [this] at hx
      simpa using hx

theorem cand_longer (p : String) (hp : p = "Update:" ∨ p = "Report:" ∨ p = "New:" ∨ p = "Latest:")
    (t source url : String) :
    (tweetCand "" (clean_title t) source url).length <
      (tweetCand p (clean_title t) source url).length := by
  rw [tweetCand_empty, tweetText_length]
  unfold tweetCand
  rw [tweetText_length]
  have hlen : ∀ m : List Char, (⟨m⟩ : String).length = m.length := fun m => rfl
  by_cases hd : (clean_title t).data = []
  · have ht0 : (clean_title t).length = 0 := by
      show (clean_title t).data.length = 0
      rw [hd]; rfl
    have : 0 < (⟨pyStripL (p.data ++ ' ' :: (clean_title t).data)⟩ : String).length := by
      rw [hd]
      rcases hp with h | h | h | h <;> rw [h] <;> decide
    omega
  · have heq : pyStripL (p.data ++ ' ' :: (clean_title t).data) =
        p.data ++ ' ' :: (clean_title t).data := by
      apply stripped_cand_eq
      · intro x xs hx
        rcases hp with h | h | h | h <;> rw [h] at hx <;> cases hx <;> decide
      · exact clean_title_noLastWs t
      · rcases hp with h | h | h | h <;> rw [h] <;> decide
      · exact hd
    have h2 : (⟨pyStripL (p.data ++ ' ' :: (clean_title t).data)⟩ : String).length
        = p.data.length + ((clean_title t).data.length + 1) := by
      rw [hlen, heq, List.length_append, List.length_cons]
    have hplen : 0 < p.data.length := by
      rcases hp with h | h | h | h <;> rw [h] <;> decide
    have h3 : (clean_title t).length = (clean_title t).data.length := rfl
    omega

/-- **C9.** `build_tweet` coincides with the prefix-free simplified composer
`build_tweet_spec` on every input — so no reword prefix can ever appear in the
output — because every prefixed candidate is strictly longer than the
unprefixed one (stated for each of the four prefixes). -/
theorem claim_C9_composer_refinement (title source url : String) :
    build_tweet title source url = build_tweet_spec title source url ∧
    (tweetCand "" (clean_title title) source url).length <
      (tweetCand "Update:" (clean_title title) source url).length ∧
    (tweetCand "" (clean_title title) source url).length <
      (tweetCand "Report:" (clean_title title) source url).length ∧
    (tweetCand "" (clean_title title) source url).length <
      (tweetCand "New:" (clean_title title) source url).length ∧
    (tweetCand "" (clean_title title) source url).length <
      (tweetCand "Latest:" (clean_title title) source url).length := by
  refine ⟨?_, cand_longer "Update:" (Or.inl rfl) title source url,
    cand_longer "Report:" (Or.inr (Or.inl rfl)) title source url,
    cand_longer "New:" (Or.inr (Or.inr (Or.inl rfl))) title source url,
    cand_longer "Latest:" (Or.inr (Or.inr (Or.inr rfl))) title source url⟩
  have hmap : ("" :: REWORD_PREFIXES).map
      (fun p => tweetCand p (clean_title title) source url) =
      [tweetCand "" (clean_title title) source url,
       tweetCand "Update:" (clean_title title) source url,
       tweetCand "Report:" (clean_title title) source url,
       tweetCand "New:" (clean_title title) source url,
       tweetCand "Latest:" (clean_title title) source url] := rfl
  unfold build_tweet build_tweet_spec
  rw [hmap]
  by_cases h : (tweetCand "" (clean_title title) source url).length ≤ 280
  · rw [List.find?_cons_of_pos _ (by simpa using h), Option.getD_some, if_pos h]
  · have hgt : 280 < (tweetCand "" (clean_title title) source url).length :=
      Nat.lt_of_not_le h
    have f1 := cand_longer "Update:" (Or.inl rfl) title source url
    have f2 := cand_longer "Report:" (Or.inr (Or.inl rfl)) title source url
    have f3 := cand_longer "New:" (Or.inr (Or.inr (Or.inl rfl))) title source url
    have f4 := cand_longer "Latest:" (Or.inr (Or.inr (Or.inr rfl))) title source url
    rw [List.find?_cons_of_neg _ (by simpa using h),
      List.find?_cons_of_neg _ (by simp only [decide_eq_true_eq]; omega),
      List.find?_cons_of_neg _ (by simp only [decide_eq_true_eq]; omega),
      List.find?_cons_of_neg _ (by simp only [decide_eq_true_eq]; omega),
      List.find?_cons_of_neg _ (by simp only [decide_eq_true_eq]; omega),
      List.find?_nil, Option.getD_none, if_neg h]

/-- **C1, counterexample.** The claim "the composer's output always fits 280
characters" fails: with a one-character title, a one-character source label
and a 262-character URL every loop candidate misses the budget, and the
unchecked fallback is returned with length 283. -/
theorem claim_C1_counterexample :
    280 < (build_tweet "a" "S" ⟨List.replicate 262 'u'⟩).length := by decide

/-- **C1, amended.** Whenever the unprefixed candidate
`"{cleanedTitle} — {source}\n{url}{tags}"` fits the 280-character budget, the
composer's output has length at most 280 (it returns that candidate).  When no
candidate fits, the fallback is not re-checked and may exceed the budget, as
the counterexample shows. -/
theorem claim_C1_length_budget (title source url : String)
    (h : (tweetCand "" (clean_title title) source url).length ≤ 280) :
    (build_tweet title source url).length ≤ 280 := by
  have hmap : ("" :: REWORD_PREFIXES).map
      (fun p => tweetCand p (clean_title title) source url) =
      [tweetCand "" (clean_title title) source url,
       tweetCand "Update:" (clean_title title) source url,
       tweetCand "Report:" (clean_title title) source url,
       tweetCand "New:" (clean_title title) source url,
       tweetCand "Latest:" (clean_title title) source url] := rfl
  unfold build_tweet
  rw [hmap, List.find?_cons_of_pos _ (by simpa using h), Option.getD_some]
  exact h

theorem claim_C1_length_budget_witness :
    (tweetCand "" (clean_title "Patriots sign new TE") "NESN" "https://x.com/a").length ≤ 280 ∧
    (build_tweet "Patriots sign new TE" "NESN" "https://x.com/a").length ≤ 280 :=
  ⟨by decide, claim_C1_length_budget _ _ _ (by decide)⟩

/-! ## C5: URL normalization and fingerprint invariance -/

theorem takeWhile_all {α : Type} {p : α → Bool} {a : List α}
    (h : a.dropWhile p = []) : a.takeWhile p = a := by
  have := List.takeWhile_append_dropWhile p a
  rw [h, List.append_nil] at this
  exact this

theorem takeWhile_append_all {α : Type} {p : α → Bool} {a : List α} (b : List α)
    (h : a.dropWhile p = []) : (a ++ b).takeWhile p = a ++ b.takeWhile p := by
  induction a with
  | nil => simp
  | cons x a ih =>
    rw [List.dropWhile_cons] at h
    by_cases hx : p x
    · rw [if_pos hx] at h
      rw [List.cons_append, List.takeWhile_cons, if_pos hx, ih h, List.cons_append]
    · rw [if_neg hx] at h
      simp at h
    
theorem splitParams_no_semi {x : List Char} (h : ';' ∉ x) : splitParams x = (x, []) := by
  unfold splitParams
  by_cases hs : '/' ∈ x
  · rw [if_pos hs]
    have hb : ';' ∉ (x.reverse.takeWhile (· ≠ '/')).reverse := by
      intro hm
      exact h ((List.takeWhile_prefix (l := x.reverse) (· ≠ '/')).subset
        (List.mem_reverse.mp hm) |> List.mem_reverse.mp)
    rw [if_neg hb]
  · rw [if_neg hs]
    rw [if_neg h]

theorem mem_cleanUrl {c : Char} {a : List Char} (h : c ∈ cleanUrl a) : c ∈ a := by
  unfold cleanUrl at h
  exact (List.dropWhile_suffix isC0OrSpace).subset (List.mem_of_mem_filter h)

theorem cleanUrl_ne_nil_dropWhile {a : List Char} (h : cleanUrl a ≠ []) :
    a.dropWhile isC0OrSpace ≠ [] := by
  intro he
  apply h
  unfold cleanUrl
  rw [he]
  rfl

theorem cleanUrl_append (a b : List Char) (ha : cleanUrl a ≠ []) :
    cleanUrl (a ++ b) = cleanUrl a ++ b.filter (fun c => ¬ isUnsafeUrlChar c) := by
  unfold cleanUrl
  rw [dropWhile_append_of_stop _ _ _ (cleanUrl_ne_nil_dropWhile ha), List.filter_append]

/-- Appending a netloc-delimiter character (and anything after it) to a URL
that parses with a non-empty scheme and netloc leaves the scheme and netloc
unchanged and extends the post-netloc remainder; the paths of both parses are
the params-split of the `#`/`?`-truncation of that remainder. -/
theorem pyUrlparse_append (u : String) (p : UrlParts) (hpu : pyUrlparse u = some p)
    (hs : p.scheme ≠ []) (hn : p.netloc ≠ []) (d : Char) (w : List Char)
    (hdelim : isNetlocDelim d = true) (hkeepc : isUnsafeUrlChar d = false) :
    ∃ (r2 : List Char) (pr : UrlParts),
      (∀ c ∈ r2, c ∈ u.data) ∧
      p.path = (splitParams ((r2.takeWhile (· ≠ '#')).takeWhile (· ≠ '?'))).1 ∧
      pyUrlparse ⟨u.data ++ d :: w⟩ = some pr ∧
      pr.scheme = p.scheme ∧ pr.netloc = p.netloc ∧
      pr.path = (splitParams (((r2 ++ d :: w.filter (fun c => ¬ isUnsafeUrlChar c)).takeWhile
        (· ≠ '#')).takeWhile (· ≠ '?'))).1 := by
  unfold pyUrlparse at hpu
  cases hsn : splitNetloc (splitScheme (cleanUrl u.data)).2 with
  | none => rw [hsn] at hpu; exact absurd hpu (by simp)
  | some nlr =>
    rw [hsn] at hpu
    injection hpu with hpu
    subst hpu
    simp only at hs hn
    have hschemeCond : ((cleanUrl u.data).dropWhile isSchemeChar).head? = some ':' ∧
        (cleanUrl u.data).takeWhile isSchemeChar ≠ [] ∧
        (((cleanUrl u.data).takeWhile isSchemeChar).headD ' ').isAlpha := by
      by_contra hc
      apply hs
      show (splitScheme (cleanUrl u.data)).1 = []
      unfold splitScheme
      rw [if_neg hc]
    obtain ⟨hcol, htne, halpha⟩ := hschemeCond
    have hLne : cleanUrl u.data ≠ [] := by
      intro he
      apply htne
      rw [he]
      rfl
    obtain ⟨tl, htl⟩ : ∃ tl, (cleanUrl u.data).dropWhile isSchemeChar = ':' :: tl := by
      cases hdw : (cleanUrl u.data).dropWhile isSchemeChar with
      | nil => rw [hdw] at hcol; simp at hcol
      | cons c t =>
        rw [hdw] at hcol
        simp only [List.head?_cons, Option.some_inj] at hcol
        exact ⟨t, by rw [hcol]⟩
    have hsplitL : splitScheme (cleanUrl u.data) =
        (((cleanUrl u.data).takeWhile isSchemeChar).map Char.toLower, tl) := by
      unfold splitScheme
      rw [if_pos ⟨hcol, htne, halpha⟩, htl]
      rfl
    rw [hsplitL] at hsn
    have hw2 : cleanUrl (u.data ++ d :: w) =
        cleanUrl u.data ++ d :: w.filter (fun c => ¬ isUnsafeUrlChar c) := by
      rw [cleanUrl_append u.data (d :: w) hLne, List.filter_cons,
        if_pos (by simp [hkeepc])]
    have hdwne : (cleanUrl u.data).dropWhile isSchemeChar ≠ [] := by
      rw [htl]; simp
    have hdw2 : (cleanUrl u.data ++ d :: w.filter (fun c => ¬ isUnsafeUrlChar c)).dropWhile
        isSchemeChar = ':' :: (tl ++ d :: w.filter (fun c => ¬ isUnsafeUrlChar c)) := by
      rw [dropWhile_append_of_stop _ _ _ hdwne, htl]
      rfl
    have htw2 : (cleanUrl u.data ++ d :: w.filter (fun c => ¬ isUnsafeUrlChar c)).takeWhile
        isSchemeChar = (cleanUrl u.data).takeWhile isSchemeChar :=
      takeWhile_append_of_stop _ _ _ hdwne
    have hsplitL2 : splitScheme (cleanUrl u.data ++ d :: w.filter (fun c => ¬ isUnsafeUrlChar c)) =
        (((cleanUrl u.data).takeWhile isSchemeChar).map Char.toLower,
         tl ++ d :: w.filter (fun c => ¬ isUnsafeUrlChar c)) := by
      unfold splitScheme
      rw [htw2, hdw2]
      rw [if_pos ⟨rfl, htne, halpha⟩]
      rfl
    have htake : tl.take 2 = ['/', '/'] := by
      by_contra hc
      have hsn' := hsn
      unfold splitNetloc at hsn'
      rw [if_neg hc] at hsn'
      injection hsn' with hsn'
      apply hn
      rw [← hsn']
    obtain ⟨rest, hrest⟩ : ∃ rest, tl = '/' :: '/' :: rest := by
      cases tl with
      | nil => simp at htake
      | cons a t =>
        cases t with
        | nil => simp at htake
        | cons b t2 =>
          have h2 : a = '/' ∧ b = '/' := by simpa using htake
          exact ⟨t2, by rw [h2.1, h2.2]⟩
    have hbr : ¬ (('[' ∈ ((tl.drop 2).takeWhile (fun c => ¬ isNetlocDelim c))) ≠
        (']' ∈ ((tl.drop 2).takeWhile (fun c => ¬ isNetlocDelim c)))) := by
      by_contra hc
      have hsn' := hsn
      unfold splitNetloc at hsn'
      rw [if_pos htake, if_pos hc] at hsn'
      exact absurd hsn' (by simp)
    have hnlr : nlr = ((tl.drop 2).takeWhile (fun c => ¬ isNetlocDelim c),
        (tl.drop 2).dropWhile (fun c => ¬ isNetlocDelim c)) := by
      have hsn' := hsn
      unfold splitNetloc at hsn'
      rw [if_pos htake, if_neg hbr] at hsn'
      injection hsn' with hsn'
      exact hsn'.symm
    have hdrop2 : (tl ++ d :: w.filter (fun c => ¬ isUnsafeUrlChar c)).drop 2 =
        tl.drop 2 ++ d :: w.filter (fun c => ¬ isUnsafeUrlChar c) := by
      rw [hrest]
      rfl
    have htake2 : (tl ++ d :: w.filter (fun c => ¬ isUnsafeUrlChar c)).take 2 = ['/', '/'] := by
      rw [hrest]
      rfl
    have hnetTake : ((tl ++ d :: w.filter (fun c => ¬ isUnsafeUrlChar c)).drop 2).takeWhile
        (fun c => ¬ isNetlocDelim c) = (tl.drop 2).takeWhile (fun c => ¬ isNetlocDelim c) := by
      rw [hdrop2]
      exact takeWhile_append_stop _ d _ _ (by simp [hdelim])
    have hnetDrop : ((tl ++ d :: w.filter (fun c => ¬ isUnsafeUrlChar c)).drop 2).dropWhile
        (fun c => ¬ isNetlocDelim c) =
        (tl.drop 2).dropWhile (fun c => ¬ isNetlocDelim c) ++
          d :: w.filter (fun c => ¬ isUnsafeUrlChar c) := by
      rw [hdrop2]
      exact dropWhile_append_stop _ d _ _ (by simp [hdelim])
    have hsplitNet2 : splitNetloc (tl ++ d :: w.filter (fun c => ¬ isUnsafeUrlChar c)) =
        some ((tl.drop 2).takeWhile (fun c => ¬ isNetlocDelim c),
          (tl.drop 2).dropWhile (fun c => ¬ isNetlocDelim c) ++
            d :: w.filter (fun c => ¬ isUnsafeUrlChar c)) := by
      unfold splitNetloc
      rw [htake2] at *
      rw [if_pos rfl]
      rw [hnetTake, hnetDrop, if_neg hbr]
    refine ⟨nlr.2,
      ⟨(splitScheme (cleanUrl u.data)).1, nlr.1,
       (splitParams (splitOnFirst '?' (splitOnFirst '#'
         (nlr.2 ++ d :: w.filter (fun c => ¬ isUnsafeUrlChar c))).1).1).1,
       (splitParams (splitOnFirst '?' (splitOnFirst '#'
         (nlr.2 ++ d :: w.filter (fun c => ¬ isUnsafeUrlChar c))).1).1).2,
       (splitOnFirst '?' (splitOnFirst '#'
         (nlr.2 ++ d :: w.filter (fun c => ¬ isUnsafeUrlChar c))).1).2,
       (splitOnFirst '#' (nlr.2 ++ d :: w.filter (fun c => ¬ isUnsafeUrlChar c))).2⟩,
      ?_, rfl, ?_, rfl, rfl, rfl⟩
    · intro c hc
      rw [hnlr] at hc
      simp only at hc
      have h1 : c ∈ tl.drop 2 := (List.dropWhile_suffix _).subset hc
      have h2 : c ∈ tl := (List.drop_suffix 2 tl).subset h1
      have h3 : c ∈ (cleanUrl u.data).dropWhile isSchemeChar := by
        rw [htl]
        exact List.mem_cons_of_mem _ h2
      exact mem_cleanUrl ((List.dropWhile_suffix isSchemeChar).subset h3)
    · show pyUrlparse ⟨u.data ++ d :: w⟩ = _
      unfold pyUrlparse
      rw [show (⟨u.data ++ d :: w⟩ : String).data = u.data ++ d :: w from rfl, hw2,
        hsplitL2]
      simp only
      rw [hsplitNet2, hsplitL, hnlr]

theorem normalize_url_eq_of_parse {x : String} {pp : UrlParts}
    (h : pyUrlparse x = some pp) :
    normalize_url x = ⟨rstripSlash (pp.scheme ++ ("://".data ++ (pp.netloc ++ pp.path)))⟩ := by
  unfold normalize_url
  rw [h]

theorem rstripSlash_append_slash (x : List Char) :
    rstripSlash (x ++ ['/']) = rstripSlash x := by
  unfold rstripSlash
  rw [List.reverse_append]
  rfl

theorem item_hash_congr (t : String) {x y : String}
    (h : normalize_url x = normalize_url y) : item_hash t x = item_hash t y := by
  unfold item_hash
  rw [h]

/-- The `#`/`?`-truncated path region is unchanged by appending `'?'` or `'#'`
followed by anything. -/
theorem pathRegion_append_stop (r2 w : List Char) {d : Char}
    (hd : d = '?' ∨ d = '#') :
    ((r2 ++ d :: w).takeWhile (· ≠ '#')).takeWhile (· ≠ '?') =
      (r2.takeWhile (· ≠ '#')).takeWhile (· ≠ '?') := by
  by_cases hA : r2.dropWhile (· ≠ '#') = []
  · rw [takeWhile_append_all _ hA, takeWhile_all hA]
    rcases hd with h | h <;> subst h
    · rw [show ('?' :: w).takeWhile (fun x => decide (x ≠ '#')) =
        '?' :: w.takeWhile (fun x => decide (x ≠ '#')) from rfl]
      exact takeWhile_append_stop _ '?' _ _ (by decide)
    · rw [show ('#' :: w).takeWhile (fun x => decide (x ≠ '#')) = [] from rfl,
        List.append_nil]
  · rw [takeWhile_append_of_stop _ _ _ hA]

/-- **C5, counterexample.**  The claim that the fingerprint is invariant under
a trailing slash fails on a URL whose last path segment carries a `;params`
suffix: `urlparse` separates `params` from the path, and a trailing slash
moves the `;p` back into the path. -/
theorem claim_C5_counterexample :
    pyUrlparse "https://x.com/a;p" =
      some ⟨"https".data, "x.com".data, "/a".data, "p".data, [], []⟩ ∧
    normalize_url "https://x.com/a;p" = "https://x.com/a" ∧
    normalize_url ("https://x.com/a;p" ++ "/") = "https://x.com/a;p" ∧
    item_hash "" ("https://x.com/a;p" ++ "/") ≠ item_hash "" "https://x.com/a;p" := by
  refine ⟨by decide, by decide, by decide, by decide⟩

theorem pathRegion_append_slash (r2 : List Char) (hsemi : ';' ∉ r2) :
    (splitParams (((r2 ++ ['/']).takeWhile (· ≠ '#')).takeWhile (· ≠ '?'))).1 =
      (splitParams ((r2.takeWhile (· ≠ '#')).takeWhile (· ≠ '?'))).1 ∨
    (splitParams (((r2 ++ ['/']).takeWhile (· ≠ '#')).takeWhile (· ≠ '?'))).1 =
      (splitParams ((r2.takeWhile (· ≠ '#')).takeWhile (· ≠ '?'))).1 ++ ['/'] := by
  by_cases hA : r2.dropWhile (· ≠ '#') = []
  · by_cases hB : r2.dropWhile (· ≠ '?') = []
    · right
      have h1 : ((r2 ++ ['/']).takeWhile (· ≠ '#')).takeWhile (· ≠ '?') = r2 ++ ['/'] := by
        rw [takeWhile_append_all _ hA,
          show (['/'] : List Char).takeWhile (fun x => decide (x ≠ '#')) = ['/'] from rfl,
          takeWhile_append_all _ hB,
          show (['/'] : List Char).takeWhile (fun x => decide (x ≠ '?')) = ['/'] from rfl]
      have h2 : (r2.takeWhile (· ≠ '#')).takeWhile (· ≠ '?') = r2 := by
        rw [takeWhile_all hA, takeWhile_all hB]
      have hsemi1 : ';' ∉ r2 ++ ['/'] := by
        intro hm
        rcases List.mem_append.mp hm with h | h
        · exact hsemi h
        · simp at h
      rw [h1, h2, splitParams_no_semi hsemi1, splitParams_no_semi hsemi]
    · left
      congr 1
      rw [takeWhile_append_all _ hA,
        show (['/'] : List Char).takeWhile (fun x => decide (x ≠ '#')) = ['/'] from rfl,
        takeWhile_all hA, takeWhile_append_of_stop _ _ _ hB]
  · left
    rw [takeWhile_append_of_stop _ _ _ hA]

/-- **C5, amended.**  For every title and every URL that parses (without a
`ValueError`) into a non-empty scheme and host, the fingerprint is unchanged
by appending a query string or a fragment; it is also unchanged by appending
or removing a trailing slash provided the URL contains no `';'` — with a
`;params` suffix on the last path segment, `urlparse`'s params splitting
makes the trailing-slash case fail, as the counterexample shows. -/
theorem claim_C5_fingerprint_url_normalization (t u q f : String) (p : UrlParts)
    (hpu : pyUrlparse u = some p) (hs : p.scheme ≠ []) (hn : p.netloc ≠ []) :
    item_hash t (u ++ "?" ++ q) = item_hash t u ∧
    item_hash t (u ++ "#" ++ f) = item_hash t u ∧
    (';' ∉ u.data → item_hash t (u ++ "/") = item_hash t u) := by
  have key : ∀ (d : Char) (w : List Char) (h1 : isNetlocDelim d = true)
      (h2 : isUnsafeUrlChar d = false), (d = '?' ∨ d = '#') →
      item_hash t ⟨u.data ++ d :: w⟩ = item_hash t u := by
    intro d w h1 h2 h3
    obtain ⟨r2, pr, hmem, hpath, hparse, hsch, hnl, hpath'⟩ :=
      pyUrlparse_append u p hpu hs hn d w h1 h2
    apply item_hash_congr
    rw [normalize_url_eq_of_parse hparse, normalize_url_eq_of_parse hpu]
    have hpe : pr.path = p.path := by
      rw [hpath', hpath, pathRegion_append_stop r2 _ h3]
    rw [hsch, hnl, hpe]
  refine ⟨?_, ?_, ?_⟩
  · have he : u ++ "?" ++ q = ⟨u.data ++ '?' :: q.data⟩ := by
      apply String.ext
      show (u.data ++ ['?']) ++ q.data = u.data ++ '?' :: q.data
      rw [List.append_assoc]
      rfl
    rw [he]
    exact key '?' q.data (by decide) (by decide) (Or.inl rfl)
  · have he : u ++ "#" ++ f = ⟨u.data ++ '#' :: f.data⟩ := by
      apply String.ext
      show (u.data ++ ['#']) ++ f.data = u.data ++ '#' :: f.data
      rw [List.append_assoc]
      rfl
    rw [he]
    exact key '#' f.data (by decide) (by decide) (Or.inr rfl)
  · intro hsemi
    have he : u ++ "/" = ⟨u.data ++ '/' :: ([] : List Char)⟩ := rfl
    rw [he]
    obtain ⟨r2, pr, hmem, hpath, hparse, hsch, hnl, hpath'⟩ :=
      pyUrlparse_append u p hpu hs hn '/' [] (by decide) (by decide)
    have hfix : r2 ++ '/' :: (([] : List Char).filter (fun c => ¬ isUnsafeUrlChar c)) =
        r2 ++ ['/'] := rfl
    rw [hfix] at hpath'
    have hsemi2 : ';' ∉ r2 := fun hin => hsemi (hmem ';' hin)
    apply item_hash_congr
    rw [normalize_url_eq_of_parse hparse, normalize_url_eq_of_parse hpu]
    rcases pathRegion_append_slash r2 hsemi2 with hcase | hcase
    · rw [hsch, hnl, hpath', hcase, ← hpath]
    · rw [hsch, hnl, hpath', hcase, ← hpath]
      congr 1
      rw [show p.scheme ++ ("://".data ++ (p.netloc ++ (p.path ++ ['/']))) =
        (p.scheme ++ ("://".data ++ (p.netloc ++ p.path))) ++ ['/'] by
          simp [List.append_assoc]]
      exact rstripSlash_append_slash _

theorem claim_C5_fingerprint_url_normalization_witness :
    pyUrlparse "https://x.com/a" =
      some ⟨"https".data, "x.com".data, "/a".data, [], [], []⟩ ∧
    item_hash "x" ("https://x.com/a" ++ "?" ++ "ref=1") = item_hash "x" "https://x.com/a" ∧
    item_hash "x" ("https://x.com/a" ++ "#" ++ "sec") = item_hash "x" "https://x.com/a" ∧
    item_hash "x" ("https://x.com/a" ++ "/") = item_hash "x" "https://x.com/a" := by
  have h := claim_C5_fingerprint_url_normalization "x" "https://x.com/a" "ref=1" "sec"
    ⟨"https".data, "x.com".data, "/a".data, [], [], []⟩ (by decide) (by decide) (by decide)
  exact ⟨by decide, h.1, h.2.1, h.2.2 (by decide)⟩

/-! ## C6: the image resolver -/

theorem quoteCapture_ne {l cap : List Char} (h : quoteCapture l = some cap) :
    cap ≠ [] := by
  unfold quoteCapture at h
  by_cases h1 : l.takeWhile (· ≠ '"') = []
  · rw [if_pos h1] at h
    exact absurd h (by simp)
  · rw [if_neg h1] at h
    by_cases h2 : l.drop (l.takeWhile (· ≠ '"')).length = []
    · rw [if_pos h2] at h
      exact absurd h (by simp)
    · rw [if_neg h2] at h
      injection h with h
      rw [← h]
      exact h1

theorem srcCaptureAt_ne {l cap : List Char} (h : srcCaptureAt l = some cap) :
    cap ≠ [] := by
  unfold srcCaptureAt at h
  by_cases hp : ("src=\"".data).isPrefixOf l
  · rw [if_pos hp] at h
    exact quoteCapture_ne h
  · rw [if_neg hp] at h
    exact absurd h (by simp)

theorem imgGreedy_ne {rest cap : List Char} {k : Nat}
    (h : imgGreedy rest k = some cap) : cap ≠ [] := by
  induction k with
  | zero => rw [imgGreedy] at h; exact absurd h (by simp)
  | succ k ih =>
    rw [imgGreedy] at h
    cases hsrc : srcCaptureAt (rest.drop (k + 1)) with
    | some c2 =>
      rw [hsrc] at h
      injection h with h
      rw [← h]
      exact srcCaptureAt_ne hsrc
    | none =>
      rw [hsrc] at h
      exact ih h

theorem imgMatchAt_ne {l cap : List Char} (h : imgMatchAt l = some cap) :
    cap ≠ [] := by
  unfold imgMatchAt at h
  by_cases hp : ("<img".data).isPrefixOf l
  · rw [if_pos hp] at h
    exact imgGreedy_ne h
  · rw [if_neg hp] at h
    exact absurd h (by simp)

theorem findImgSrc_ne {l : List Char} {s : String} (h : findImgSrc l = some s) :
    s ≠ "" := by
  induction l with
  | nil => rw [findImgSrc] at h; exact absurd h (by simp)
  | cons c rest ih =>
    rw [findImgSrc] at h
    cases hm : imgMatchAt (c :: rest) with
    | some cap =>
      rw [hm] at h
      injection h with h
      intro he
      apply imgMatchAt_ne hm
      rw [← h] at he
      exact congrArg String.data he
    | none =>
      rw [hm] at h
      exact ih h

theorem imgFromMediaContent_ne {e : Entry} {s : String}
    (h : imgFromMediaContent e = some s) : s ≠ "" := by
  unfold imgFromMediaContent at h
  cases hm : (e.media_content.getD []).head? with
  | none => rw [hm] at h; exact absurd h (by simp)
  | some m0 =>
    rw [hm] at h
    dsimp only at h
    by_cases h1 : m0.url.getD "" = ""
    · rw [if_pos h1] at h
      exact absurd h (by simp)
    · rw [if_neg h1] at h
      intro he
      apply h1
      rw [h, he]
      rfl

theorem imgFromThumb_ne {e : Entry} {s : String}
    (h : imgFromThumb e = some s) : s ≠ "" := by
  unfold imgFromThumb at h
  cases hm : (e.media_thumbnail.getD []).head? with
  | none => rw [hm] at h; exact absurd h (by simp)
  | some m0 =>
    rw [hm] at h
    dsimp only at h
    by_cases h1 : m0.url.getD "" = ""
    · rw [if_pos h1] at h
      exact absurd h (by simp)
    · rw [if_neg h1] at h
      intro he
      apply h1
      rw [h, he]
      rfl

theorem imgFromContent_ne {e : Entry} {s : String}
    (h : imgFromContent e = some s) : s ≠ "" := by
  unfold imgFromContent at h
  cases hm : (e.content.getD []).head? with
  | none => rw [hm] at h; exact absurd h (by simp)
  | some c0 =>
    rw [hm] at h
    dsimp only at h
    exact findImgSrc_ne h

theorem imgFromSummary_ne {e : Entry} {s : String}
    (h : imgFromSummary e = some s) : s ≠ "" :=
  findImgSrc_ne h

theorem firstNonEmptyStr_ne (l : List (Option String)) :
    firstNonEmptyStr l ≠ some "" := by
  induction l with
  | nil => simp [firstNonEmptyStr]
  | cons o rest ih =>
    cases o with
    | none => rw [firstNonEmptyStr]; exact ih
    | some u =>
      rw [firstNonEmptyStr]
      by_cases hu : u = ""
      · rw [if_pos hu]; exact ih
      · rw [if_neg hu]
        intro he
        injection he with he
        exact hu he

theorem firstNonEmptyStr_none_iff (l : List (Option String)) :
    firstNonEmptyStr l = none ↔ ∀ o ∈ l, o = none ∨ o = some "" := by
  induction l with
  | nil => simp [firstNonEmptyStr]
  | cons o rest ih =>
    cases o with
    | none => rw [firstNonEmptyStr]; simp [ih]
    | some u =>
      rw [firstNonEmptyStr]
      by_cases hu : u = ""
      · subst hu
        rw [if_pos rfl]
        simp [ih]
      · rw [if_neg hu]
        simp only [List.mem_cons]
        constructor
        · intro h; exact absurd h (by simp)
        · intro h
          rcases h (some u) (Or.inl rfl) with h1 | h1
          · exact absurd h1 (by simp)
          · injection h1 with h1; exact absurd h1 hu

/-- **C6, counterexample.**  An enclosure link with `rel="enclosure"`, an
image type and an *empty* `href` makes `extract_image_url` return the empty
string even though the lower-priority summary source carries a usable image
URL — contradicting "returns the first source yielding a non-empty URL,
never an empty string". -/
theorem claim_C6_counterexample :
    extract_image_url eC6 = some "" ∧ imgFromSummary eC6 = some "http://pic" := by
  refine ⟨by decide, by decide⟩

theorem extract_step1 {e : Entry} {u : String} (h : imgFromMediaContent e = some u) :
    extract_image_url e = some u := by
  unfold extract_image_url
  rw [h]

theorem extract_step2 {e : Entry} {l : LinkRef} (h1 : imgFromMediaContent e = none)
    (h2 : enclosureLink e = some l) : extract_image_url e = l.href := by
  unfold extract_image_url
  rw [h1, h2]

theorem extract_step3 {e : Entry} (h1 : imgFromMediaContent e = none)
    (h2 : enclosureLink e = none) :
    extract_image_url e =
      match imgFromThumb e with
      | some u => some u
      | none =>
        match imgFromContent e with
        | some u => some u
        | none => imgFromSummary e := by
  unfold extract_image_url
  rw [h1, h2]

theorem fNE_cons_none (rest : List (Option String)) :
    firstNonEmptyStr (none :: rest) = firstNonEmptyStr rest := rfl

theorem fNE_cons_some {u : String} (rest : List (Option String)) (h : u ≠ "") :
    firstNonEmptyStr (some u :: rest) = some u := by
  rw [firstNonEmptyStr, if_neg h]

/-- **C6, amended.**  For every entry whose enclosure-image links (if any)
carry a non-empty `href`, the resolver tries the five sources in priority
order and returns the first non-empty URL, never the empty string, and
returns `none` exactly when all five sources fail.  Without that hypothesis
the claim fails: a matching enclosure link returns its `href` unconditionally
(even empty or missing), as the counterexample shows. -/
theorem claim_C6_image_resolver (e : Entry)
    (h : ∀ l ∈ e.links, (l.rel = some "enclosure" ∧
        containsSub (l.ltype.getD "").data "image".data = true) →
      l.href.getD "" ≠ "") :
    extract_image_url e = firstNonEmptyStr (sourcesList e) ∧
    extract_image_url e ≠ some "" ∧
    (extract_image_url e = none ↔ ∀ o ∈ sourcesList e, o = none ∨ o = some "") := by
  have hEq : extract_image_url e = firstNonEmptyStr (sourcesList e) := by
    rw [show sourcesList e = [imgFromMediaContent e,
      (enclosureLink e).bind (fun l => l.href), imgFromThumb e, imgFromContent e,
      imgFromSummary e] from rfl]
    cases h1 : imgFromMediaContent e with
    | some u =>
      rw [extract_step1 h1, fNE_cons_some _ (imgFromMediaContent_ne h1)]
    | none =>
      rw [fNE_cons_none]
      cases h2 : enclosureLink e with
      | some l =>
        have hl : l ∈ e.links := List.mem_of_find?_eq_some h2
        have hp : l.rel = some "enclosure" ∧
            containsSub (l.ltype.getD "").data "image".data = true := by
          have := List.find?_some h2
          simpa using this
        have hhref := h l hl hp
        cases h3 : l.href with
        | none =>
          rw [h3] at hhref
          exact absurd rfl hhref
        | some s =>
          have hs : s ≠ "" := by
            rw [h3] at hhref
            simpa using hhref
          rw [extract_step2 h1 h2, h3,
            show (some l).bind (fun l => l.href) = l.href from rfl, h3,
            fNE_cons_some _ hs]
      | none =>
        rw [show (none : Option LinkRef).bind (fun l => l.href) = none from rfl,
          fNE_cons_none, extract_step3 h1 h2]
        cases h3 : imgFromThumb e with
        | some u => rw [fNE_cons_some _ (imgFromThumb_ne h3)]
        | none =>
          rw [fNE_cons_none]
          cases h4 : imgFromContent e with
          | some u => rw [fNE_cons_some _ (imgFromContent_ne h4)]
          | none =>
            rw [fNE_cons_none]
            cases h5 : imgFromSummary e with
            | some u => rw [fNE_cons_some _ (imgFromSummary_ne h5)]
            | none => rfl
  refine ⟨hEq, ?_, ?_⟩
  · rw [hEq]
    exact firstNonEmptyStr_ne _
  · rw [hEq]
    exact firstNonEmptyStr_none_iff _

theorem claim_C6_image_resolver_witness :
    (extract_image_url ⟨some "t", some "l", none,
        [⟨some "enclosure", some "image/png", some "http://img"⟩], none, none, none⟩ =
      firstNonEmptyStr (sourcesList ⟨some "t", some "l", none,
        [⟨some "enclosure", some "image/png", some "http://img"⟩], none, none, none⟩)) ∧
    extract_image_url ⟨some "t", some "l", none,
        [⟨some "enclosure", some "image/png", some "http://img"⟩], none, none, none⟩ ≠
      some "" ∧
    (extract_image_url ⟨some "t", some "l", none,
        [⟨some "enclosure", some "image/png", some "http://img"⟩], none, none, none⟩ = none ↔
      ∀ o ∈ sourcesList ⟨some "t", some "l", none,
        [⟨some "enclosure", some "image/png", some "http://img"⟩], none, none, none⟩,
        o = none ∨ o = some "") :=
  claim_C6_image_resolver _ (by decide)

/-! ## Pipeline invariants (C4, C10, C3, C2) -/

theorem succCount_append (a b : List Event) :
    succCount (a ++ b) = succCount a + succCount b := by
  induction a with
  | nil => simp [succCount]
  | cons ev a ih => rw [List.cons_append, succCount, ih, succCount]; omega

theorem successFps_append (a b : List Event) :
    successFps (a ++ b) = successFps a ++ successFps b := by
  induction a with
  | nil => simp [successFps]
  | cons ev a ih =>
    cases ev with
    | fetch furl => rw [List.cons_append, successFps, ih, successFps]
    | attempt fp text s =>
      rw [List.cons_append, successFps, ih, successFps]
      by_cases hs : s
      · rw [if_pos hs, if_pos hs, List.cons_append]
      · rw [if_neg hs, if_neg hs]

theorem capOK_append {a b : List Event} {n : Nat} (ha : capOK n a)
    (hb : capOK (n + succCount a) b) : capOK n (a ++ b) := by
  induction a generalizing n with
  | nil => simpa [succCount] using hb
  | cons ev a ih =>
    rw [capOK] at ha
    rw [List.cons_append, capOK]
    refine ⟨ha.1, ih ha.2 ?_⟩
    rw [succCount] at hb
    rw [Nat.add_assoc]
    exact hb

theorem stepItem_cases (c : Collab) (source : String) (st : BotState) (e : Entry) :
    stepItem c source st e = (st, []) ∨
    stepItem c source st e =
      (st, [Event.attempt (entryFp e) (entryText source e) false]) ∨
    (entryFp e ∉ st.seen ∧
      stepItem c source st e =
        (⟨st.seen.insert (entryFp e), st.posted + 1⟩,
         [Event.attempt (entryFp e) (entryText source e) true])) := by
  unfold stepItem
  split_ifs with h1 h2 h3 h4
  · exact Or.inl rfl
  · exact Or.inl rfl
  · exact Or.inl rfl
  · exact Or.inr (Or.inr ⟨h3, rfl⟩)
  · exact Or.inr (Or.inl rfl)

theorem stepItem_main (c : Collab) (source : String) (st : BotState) (e : Entry) :
    (stepItem c source st e).1.posted = st.posted + succCount (stepItem c source st e).2 ∧
    st.seen ⊆ (stepItem c source st e).1.seen ∧
    (∀ fp ∈ successFps (stepItem c source st e).2,
      fp ∉ st.seen ∧ fp ∈ (stepItem c source st e).1.seen) ∧
    succCount (stepItem c source st e).2 ≤ 1 := by
  rcases stepItem_cases c source st e with h | h | ⟨hfp, h⟩ <;> rw [h]
  · exact ⟨by simp [succCount], fun x hx => hx, by simp [successFps], by simp [succCount]⟩
  · refine ⟨by simp [succCount, succOf], fun x hx => hx, ?_, by simp [succCount, succOf]⟩
    simp [successFps]
  · refine ⟨by simp [succCount, succOf], ?_, ?_, by simp [succCount, succOf]⟩
    · intro x hx
      exact List.mem_insert_iff.mpr (Or.inr hx)
    · intro fp hfp2
      have h1 : fp = entryFp e := by simpa [successFps] using hfp2
      subst h1
      exact ⟨hfp, List.mem_insert_iff.mpr (Or.inl rfl)⟩

theorem runItems_cons (c : Collab) (source : String) (st : BotState) (e : Entry)
    (rest : List Entry) :
    runItems c source st (e :: rest) =
      if MAX_POSTS_PER_RUN ≤ st.posted then (st, [])
      else ((runItems c source (stepItem c source st e).1 rest).1,
        (stepItem c source st e).2 ++
          (runItems c source (stepItem c source st e).1 rest).2) := rfl

theorem runItems_main (c : Collab) (source : String) :
    ∀ (es : List Entry) (st : BotState),
    (runItems c source st es).1.posted =
      st.posted + succCount (runItems c source st es).2 ∧
    st.seen ⊆ (runItems c source st es).1.seen ∧
    (∀ fp ∈ successFps (runItems c source st es).2,
      fp ∉ st.seen ∧ fp ∈ (runItems c source st es).1.seen) ∧
    capOK st.posted (runItems c source st es).2 := by
  intro es
  induction es with
  | nil =>
    intro st
    exact ⟨by simp [runItems, succCount], fun x hx => hx, by simp [runItems, successFps],
      by simp [runItems, capOK]⟩
  | cons e rest ih =>
    intro st
    rw [runItems_cons]
    by_cases hcap : MAX_POSTS_PER_RUN ≤ st.posted
    · rw [if_pos hcap]
      exact ⟨by simp [succCount], fun x hx => hx, by simp [successFps], by simp [capOK]⟩
    · rw [if_neg hcap]
      obtain ⟨hp1, hs1, hf1, hc1⟩ := stepItem_main c source st e
      obtain ⟨hp2, hs2, hf2, hc2⟩ := ih (stepItem c source st e).1
      refine ⟨?_, ?_, ?_, ?_⟩
      · simp only [succCount_append]
        rw [hp2, hp1]
        omega
      · exact fun x hx => hs2 (hs1 hx)
      · intro fp hfp
        rw [successFps_append, List.mem_append] at hfp
        rcases hfp with h | h
        · obtain ⟨ha, hb⟩ := hf1 fp h
          exact ⟨ha, hs2 hb⟩
        · obtain ⟨ha, hb⟩ := hf2 fp h
          refine ⟨fun hmem => ha (hs1 hmem), hb⟩
      · apply capOK_append
        · -- capOK st.posted (stepItem ...).2 : at most one event, emitted below cap
          rcases stepItem_cases c source st e with h | h | ⟨_, h⟩ <;> rw [h]
          · simp [capOK]
          · exact ⟨Nat.lt_of_not_le hcap, by simp [capOK]⟩
          · exact ⟨Nat.lt_of_not_le hcap, by simp [capOK]⟩
        · rw [← hp1]
          exact hc2

theorem runItems_posted_le (c : Collab) (source : String) (es : List Entry)
    (st : BotState) (h : st.posted ≤ MAX_POSTS_PER_RUN) :
    (runItems c source st es).1.posted ≤ MAX_POSTS_PER_RUN := by
  induction es generalizing st with
  | nil => simpa [runItems] using h
  | cons e rest ih =>
    rw [runItems_cons]
    by_cases hcap : MAX_POSTS_PER_RUN ≤ st.posted
    · rw [if_pos hcap]; exact h
    · rw [if_neg hcap]
      apply ih
      rcases stepItem_cases c source st e with hc | hc | ⟨_, hc⟩ <;> rw [hc]
      · exact h
      · exact h
      · show st.posted + 1 ≤ MAX_POSTS_PER_RUN
        exact Nat.lt_of_not_le hcap

theorem runFeeds_cons (c : Collab) (f : Feed) (rest : List Feed) (st : BotState) :
    runFeeds c st (f :: rest) =
      if MAX_POSTS_PER_RUN ≤ st.posted then (st, [])
      else
        ((runFeeds c (runItems c (f.ftitle.getD "Source") st (f.entries.take 12)).1
            rest).1,
          Event.fetch f.furl ::
            ((runItems c (f.ftitle.getD "Source") st (f.entries.take 12)).2 ++
              (runFeeds c
                (runItems c (f.ftitle.getD "Source") st (f.entries.take 12)).1
                rest).2)) := rfl

theorem runFeeds_main (c : Collab) :
    ∀ (fs : List Feed) (st : BotState),
    (runFeeds c st fs).1.posted = st.posted + succCount (runFeeds c st fs).2 ∧
    st.seen ⊆ (runFeeds c st fs).1.seen ∧
    (∀ fp ∈ successFps (runFeeds c st fs).2,
      fp ∉ st.seen ∧ fp ∈ (runFeeds c st fs).1.seen) ∧
    capOK st.posted (runFeeds c st fs).2 := by
  intro fs
  induction fs with
  | nil =>
    intro st
    exact ⟨by simp [runFeeds, succCount], fun x hx => hx,
      by simp [runFeeds, successFps], by simp [runFeeds, capOK]⟩
  | cons f rest ih =>
    intro st
    rw [runFeeds_cons]
    by_cases hcap : MAX_POSTS_PER_RUN ≤ st.posted
    · rw [if_pos hcap]
      exact ⟨by simp [succCount], fun x hx => hx, by simp [successFps],
        by simp [capOK]⟩
    · rw [if_neg hcap]
      obtain ⟨hp1, hs1, hf1, hc1⟩ :=
        runItems_main c (f.ftitle.getD "Source") (f.entries.take 12) st
      obtain ⟨hp2, hs2, hf2, hc2⟩ :=
        ih (runItems c (f.ftitle.getD "Source") st (f.entries.take 12)).1
      refine ⟨?_, ?_, ?_, ?_⟩
      · simp only [succCount, succOf, succCount_append]
        rw [hp2, hp1]
        omega
      · exact fun x hx => hs2 (hs1 hx)
      · intro fp hfp
        simp only [successFps, successFps_append, List.mem_append] at hfp
        rcases hfp with h | h
        · obtain ⟨ha, hb⟩ := hf1 fp h
          exact ⟨ha, hs2 hb⟩
        · obtain ⟨ha, hb⟩ := hf2 fp h
          exact ⟨fun hm => ha (hs1 hm), hb⟩
      · refine ⟨Nat.lt_of_not_le hcap, ?_⟩
        have hc2' : capOK
            (st.posted +
              succCount (runItems c (f.ftitle.getD "Source") st
                (f.entries.take 12)).2)
            (runFeeds c
              (runItems c (f.ftitle.getD "Source") st (f.entries.take 12)).1
              rest).2 := by
          rw [← hp1]; exact hc2
        simpa [succOf] using capOK_append hc1 hc2'

theorem runFeeds_posted_le (c : Collab) (fs : List Feed) (st : BotState)
    (h : st.posted ≤ MAX_POSTS_PER_RUN) :
    (runFeeds c st fs).1.posted ≤ MAX_POSTS_PER_RUN := by
  induction fs generalizing st with
  | nil => simpa [runFeeds] using h
  | cons f rest ih =>
    rw [runFeeds_cons]
    by_cases hcap : MAX_POSTS_PER_RUN ≤ st.posted
    · rw [if_pos hcap]; exact h
    · rw [if_neg hcap]
      exact ih _ (runItems_posted_le c (f.ftitle.getD "Source") (f.entries.take 12) st h)

theorem runItems_nodup (c : Collab) (source : String) :
    ∀ (es : List Entry) (st : BotState),
    (successFps (runItems c source st es).2).Nodup := by
  intro es
  induction es with
  | nil => intro st; simp [runItems, successFps]
  | cons e rest ih =>
    intro st
    rw [runItems_cons]
    by_cases hcap : MAX_POSTS_PER_RUN ≤ st.posted
    · rw [if_pos hcap]; simp [successFps]
    · rw [if_neg hcap]
      simp only [successFps_append]
      apply List.Nodup.append
      · rcases stepItem_cases c source st e with h | h | ⟨_, h⟩ <;> rw [h] <;>
          simp [successFps]
      · exact ih (stepItem c source st e).1
      · intro x hx1 hx2
        have h1 := ((stepItem_main c source st e).2.2.1 x hx1).2
        have h2 :=
          ((runItems_main c source rest (stepItem c source st e).1).2.2.1 x hx2).1
        exact h2 h1

theorem runFeeds_nodup (c : Collab) :
    ∀ (fs : List Feed) (st : BotState),
    (successFps (runFeeds c st fs).2).Nodup := by
  intro fs
  induction fs with
  | nil => intro st; simp [runFeeds, successFps]
  | cons f rest ih =>
    intro st
    rw [runFeeds_cons]
    by_cases hcap : MAX_POSTS_PER_RUN ≤ st.posted
    · rw [if_pos hcap]; simp [successFps]
    · rw [if_neg hcap]
      simp only [successFps, successFps_append]
      apply List.Nodup.append
      · exact runItems_nodup c (f.ftitle.getD "Source") (f.entries.take 12) st
      · exact ih (runItems c (f.ftitle.getD "Source") st (f.entries.take 12)).1
      · intro x hx1 hx2
        have h1 :=
          ((runItems_main c (f.ftitle.getD "Source") (f.entries.take 12) st).2.2.1
            x hx1).2
        have h2 :=
          ((runFeeds_main c rest
            (runItems c (f.ftitle.getD "Source") st (f.entries.take 12)).1).2.2.1
            x hx2).1
        exact h2 h1

theorem nodup_insert_list {l : List String} {a : String} (h : l.Nodup) :
    (l.insert a).Nodup := by
  by_cases hm : a ∈ l
  · rwa [List.insert_of_mem hm]
  · rw [List.insert_of_not_mem hm]
    exact List.nodup_cons.mpr ⟨hm, h⟩

theorem runItems_wf (c : Collab) (source : String) :
    ∀ (es : List Entry) (st : BotState),
    (∀ x ∈ st.seen, WfFp x) →
    ∀ x ∈ (runItems c source st es).1.seen, WfFp x := by
  intro es
  induction es with
  | nil => intro st h; simpa [runItems] using h
  | cons e rest ih =>
    intro st h
    rw [runItems_cons]
    by_cases hcap : MAX_POSTS_PER_RUN ≤ st.posted
    · rw [if_pos hcap]; exact h
    · rw [if_neg hcap]
      intro x hx
      refine ih (stepItem c source st e).1 ?_ x hx
      intro y hy
      rcases stepItem_cases c source st e with hc | hc | ⟨_, hc⟩ <;> rw [hc] at hy
      · exact h y hy
      · exact h y hy
      · rcases List.mem_insert_iff.mp hy with h1 | h1
        · rw [h1]; exact wfFp_item_hash _ _
        · exact h y h1

theorem runFeeds_wf (c : Collab) :
    ∀ (fs : List Feed) (st : BotState),
    (∀ x ∈ st.seen, WfFp x) →
    ∀ x ∈ (runFeeds c st fs).1.seen, WfFp x := by
  intro fs
  induction fs with
  | nil => intro st h; simpa [runFeeds] using h
  | cons f rest ih =>
    intro st h
    rw [runFeeds_cons]
    by_cases hcap : MAX_POSTS_PER_RUN ≤ st.posted
    · rw [if_pos hcap]; exact h
    · rw [if_neg hcap]
      exact ih (runItems c (f.ftitle.getD "Source") st (f.entries.take 12)).1
        (runItems_wf c (f.ftitle.getD "Source") (f.entries.take 12) st h)

theorem runItems_seen_nodup (c : Collab) (source : String) :
    ∀ (es : List Entry) (st : BotState),
    st.seen.Nodup → (runItems c source st es).1.seen.Nodup := by
  intro es
  induction es with
  | nil => intro st h; simpa [runItems] using h
  | cons e rest ih =>
    intro st h
    rw [runItems_cons]
    by_cases hcap : MAX_POSTS_PER_RUN ≤ st.posted
    · rw [if_pos hcap]; exact h
    · rw [if_neg hcap]
      refine ih (stepItem c source st e).1 ?_
      rcases stepItem_cases c source st e with hc | hc | ⟨_, hc⟩ <;> rw [hc]
      · exact h
      · exact h
      · exact nodup_insert_list h

theorem runFeeds_seen_nodup (c : Collab) :
    ∀ (fs : List Feed) (st : BotState),
    st.seen.Nodup → (runFeeds c st fs).1.seen.Nodup := by
  intro fs
  induction fs with
  | nil => intro st h; simpa [runFeeds] using h
  | cons f rest ih =>
    intro st h
    rw [runFeeds_cons]
    by_cases hcap : MAX_POSTS_PER_RUN ≤ st.posted
    · rw [if_pos hcap]; exact h
    · rw [if_neg hcap]
      exact ih (runItems c (f.ftitle.getD "Source") st (f.entries.take 12)).1
        (runItems_seen_nodup c (f.ftitle.getD "Source") (f.entries.take 12) st h)

theorem load_seen_nodup (file : Option String) : (load_seen file).Nodup := by
  cases file with
  | none => simp [load_seen]
  | some s => exact List.nodup_dedup _

theorem stepItem_sim (c : Collab) (source : String) (F : List String)
    (st : BotState) (e : Entry)
    (hsub : ∀ x ∈ (stepItem c source st e).1.seen, x ∈ F) :
    (stepItem c source ⟨F, 0⟩ e).1 = ⟨F, 0⟩ := by
  unfold stepItem
  by_cases h1 : entryTitle e = "" ∨ entryLink e = ""
  · rw [if_pos h1]
  · rw [if_neg h1]
    by_cases h2 : looks_like_patriots (entryTitle e) = false
    · rw [if_pos h2]
    · rw [if_neg h2]
      by_cases h3 : entryFp e ∈ F
      · rw [if_pos h3]
      · rw [if_neg h3]
        by_cases h4 : c.pub (entryText source e) (mediaIds c e) = true
        · exfalso
          apply h3
          by_cases h5 : entryFp e ∈ st.seen
          · exact hsub _ ((stepItem_main c source st e).2.1 h5)
          · have hr : stepItem c source st e =
                (⟨st.seen.insert (entryFp e), st.posted + 1⟩,
                 [Event.attempt (entryFp e) (entryText source e) true]) := by
              unfold stepItem
              rw [if_neg h1, if_neg h2, if_neg h5, if_pos h4]
            rw [hr] at hsub
            exact hsub _ (List.mem_insert_self _ _)
        · rw [if_neg h4]

theorem stepItem_refail (c : Collab) (source : String) (F : List String)
    (st : BotState) (e : Entry) (fp text : String)
    (hev : (stepItem c source st e).2 = [Event.attempt fp text false])
    (hfp : fp ∉ F) :
    stepItem c source ⟨F, 0⟩ e = (⟨F, 0⟩, [Event.attempt fp text false]) := by
  unfold stepItem at hev ⊢
  split_ifs at hev with h1 h2 h3 h4
  · exact absurd hev (by simp)
  · obtain ⟨h5, h6⟩ : entryFp e = fp ∧ entryText source e = text := by
      simpa using hev
    rw [if_neg h1, if_neg h2, if_neg (fun hm => hfp (h5 ▸ hm)), if_neg h4, h5, h6]

theorem runItems_refail (c : Collab) (source : String) (F : List String)
    (fp text : String) (hfp : fp ∉ F) :
    ∀ (es : List Entry) (st : BotState),
    (∀ x ∈ (runItems c source st es).1.seen, x ∈ F) →
    Event.attempt fp text false ∈ (runItems c source st es).2 →
    Event.attempt fp text false ∈ (runItems c source ⟨F, 0⟩ es).2 := by
  intro es
  induction es with
  | nil => intro st _ hmem; simp [runItems] at hmem
  | cons e rest ih =>
    intro st hsub hmem
    rw [runItems_cons] at hsub hmem
    by_cases hcap : MAX_POSTS_PER_RUN ≤ st.posted
    · rw [if_pos hcap] at hmem
      simp at hmem
    · rw [if_neg hcap] at hsub hmem
      have hF0 : ¬ MAX_POSTS_PER_RUN ≤ (BotState.mk F 0).posted := by simp [MAX_POSTS_PER_RUN]
      have hsub1 : ∀ x ∈ (stepItem c source st e).1.seen, x ∈ F := by
        intro x hx
        exact hsub x ((runItems_main c source rest (stepItem c source st e).1).2.1 hx)
      rcases List.mem_append.mp hmem with h | h
      · rcases stepItem_cases c source st e with hc | hc | ⟨_, hc⟩
        · rw [hc] at h; simp at h
        · rw [hc] at h
          obtain ⟨h5, h6⟩ : fp = entryFp e ∧ text = entryText source e := by
            simpa using h
          have hev : (stepItem c source st e).2 = [Event.attempt fp text false] := by
            rw [hc, h5, h6]
          have hstep := stepItem_refail c source F st e fp text hev hfp
          rw [runItems_cons, if_neg hF0, hstep]
          simp
        · rw [hc] at h; simp at h
      · have hI := ih (stepItem c source st e).1 hsub h
        rw [runItems_cons, if_neg hF0, stepItem_sim c source F st e hsub1]
        exact List.mem_append_right _ hI

theorem runItems_sim (c : Collab) (source : String) (F : List String) :
    ∀ (es : List Entry) (st : BotState),
    (∀ x ∈ (runItems c source st es).1.seen, x ∈ F) →
    (runItems c source st es).1.posted < MAX_POSTS_PER_RUN →
    (runItems c source ⟨F, 0⟩ es).1 = ⟨F, 0⟩ := by
  intro es
  induction es with
  | nil => intro st _ _; rfl
  | cons e rest ih =>
    intro st hsub hlt
    rw [runItems_cons] at hsub hlt
    by_cases hcap : MAX_POSTS_PER_RUN ≤ st.posted
    · rw [if_pos hcap] at hlt
      exact absurd hcap (not_le.mpr hlt)
    · rw [if_neg hcap] at hsub hlt
      have hF0 : ¬ MAX_POSTS_PER_RUN ≤ (BotState.mk F 0).posted := by simp [MAX_POSTS_PER_RUN]
      have hsub1 : ∀ x ∈ (stepItem c source st e).1.seen, x ∈ F := by
        intro x hx
        exact hsub x ((runItems_main c source rest (stepItem c source st e).1).2.1 hx)
      rw [runItems_cons, if_neg hF0, stepItem_sim c source F st e hsub1]
      exact ih (stepItem c source st e).1 hsub hlt

theorem runFeeds_events_ne (c : Collab) (fs : List Feed) (st : BotState)
    (h : (runFeeds c st fs).2 ≠ []) : st.posted < MAX_POSTS_PER_RUN := by
  cases fs with
  | nil => exact absurd rfl h
  | cons f rest =>
    by_cases hcap : MAX_POSTS_PER_RUN ≤ st.posted
    · exact absurd (show (runFeeds c st (f :: rest)).2 = [] by
        rw [runFeeds_cons, if_pos hcap]) h
    · exact Nat.lt_of_not_le hcap

theorem runFeeds_refail (c : Collab) (F : List String) (fp text : String)
    (hfp : fp ∉ F) :
    ∀ (fs : List Feed) (st : BotState),
    (∀ x ∈ (runFeeds c st fs).1.seen, x ∈ F) →
    Event.attempt fp text false ∈ (runFeeds c st fs).2 →
    Event.attempt fp text false ∈ (runFeeds c ⟨F, 0⟩ fs).2 := by
  intro fs
  induction fs with
  | nil => intro st _ hmem; simp [runFeeds] at hmem
  | cons f rest ih =>
    intro st hsub hmem
    rw [runFeeds_cons] at hsub hmem
    by_cases hcap : MAX_POSTS_PER_RUN ≤ st.posted
    · rw [if_pos hcap] at hmem
      simp at hmem
    · rw [if_neg hcap] at hsub hmem
      have hF0 : ¬ MAX_POSTS_PER_RUN ≤ (BotState.mk F 0).posted := by simp [MAX_POSTS_PER_RUN]
      have hsubI : ∀ x ∈
          (runItems c (f.ftitle.getD "Source") st (f.entries.take 12)).1.seen,
          x ∈ F := by
        intro x hx
        exact hsub x ((runFeeds_main c rest
          (runItems c (f.ftitle.getD "Source") st (f.entries.take 12)).1).2.1 hx)
      rcases List.mem_cons.mp hmem with heq | hmem2
      · exact absurd heq (by simp)
      · rcases List.mem_append.mp hmem2 with h | h
        · have hI := runItems_refail c (f.ftitle.getD "Source") F fp text hfp
            (f.entries.take 12) st hsubI h
          rw [runFeeds_cons, if_neg hF0]
          exact List.mem_cons_of_mem _ (List.mem_append_left _ hI)
        · have hne : (runFeeds c
              (runItems c (f.ftitle.getD "Source") st (f.entries.take 12)).1
              rest).2 ≠ [] := fun hnil => by rw [hnil] at h; simp at h
          have hlt := runFeeds_events_ne c rest _ hne
          have hsim := runItems_sim c (f.ftitle.getD "Source") F
            (f.entries.take 12) st hsubI hlt
          have hR := ih (runItems c (f.ftitle.getD "Source") st
            (f.entries.take 12)).1 hsub h
          rw [runFeeds_cons, if_neg hF0, hsim]
          exact List.mem_cons_of_mem _ (List.mem_append_right _ hR)

/-- Claim C4: in every run the final posted counter equals the number of
successful publishes, that number never exceeds the configured per-run
maximum (`MAX_POSTS_PER_RUN = 4`), and every event of the run — feed fetch or
publish attempt — is emitted while the number of successes so far is still
below the cap, i.e. once the counter reaches the maximum neither the feed
loop nor the item loop processes anything further. -/
theorem claim_C4_per_run_cap (c : Collab) (feeds : List Feed)
    (file : Option String) :
    MAX_POSTS_PER_RUN = 4 ∧
    (run_bot c feeds file).state.posted = succCount (run_bot c feeds file).events ∧
    succCount (run_bot c feeds file).events ≤ MAX_POSTS_PER_RUN ∧
    capOK 0 (run_bot c feeds file).events := by
  obtain ⟨hp, -, -, hc⟩ := runFeeds_main c feeds ⟨load_seen file, 0⟩
  have hp' : (runFeeds c ⟨load_seen file, 0⟩ feeds).1.posted =
      succCount (runFeeds c ⟨load_seen file, 0⟩ feeds).2 := by
    simpa using hp
  refine ⟨rfl, hp', ?_, hc⟩
  have hle := runFeeds_posted_le c feeds ⟨load_seen file, 0⟩ (Nat.zero_le _)
  show succCount (runFeeds c ⟨load_seen file, 0⟩ feeds).2 ≤ MAX_POSTS_PER_RUN
  rw [← hp']
  exact hle

/-- Claim C10: within a single run no two successful publishes share a
fingerprint, and every successfully published fingerprint is in the run's
final in-memory seen-set — it is added right at publish success, so a later
item of the same run with an equal fingerprint is skipped as a duplicate
before anything is persisted. -/
theorem claim_C10_distinct_success_fingerprints (c : Collab) (feeds : List Feed)
    (file : Option String) :
    (successFps (run_bot c feeds file).events).Nodup ∧
    ∀ fp ∈ successFps (run_bot c feeds file).events,
      fp ∈ (run_bot c feeds file).state.seen := by
  refine ⟨runFeeds_nodup c feeds ⟨load_seen file, 0⟩, ?_⟩
  intro fp hfp
  exact ((runFeeds_main c feeds ⟨load_seen file, 0⟩).2.2.1 fp hfp).2

/-- Claim C3: with one feed holding a single relevant never-seen item, one
feed holding a single irrelevant item, and a publish collaborator that always
succeeds, a run publishes exactly one item and adds exactly its fingerprint
to the persisted seen-set, and a second run started from the persisted
seen-set publishes nothing. -/
theorem claim_C3_two_feed_scenario :
    c3Run1.state.posted = 1 ∧
    succCount c3Run1.events = 1 ∧
    c3Run1.state.seen = [entryFp entryA] ∧
    load_seen (some c3Run1.saved) = [entryFp entryA] ∧
    c3Run2.state.posted = 0 ∧
    succCount c3Run2.events = 0 := by
  decide

/-- Claim C2: when the publish call fails, the loop state is unchanged — the
item's fingerprint is not added to the seen-set and the posted counter is not
incremented; the item loop continues with the following items from that
unchanged state rather than aborting the run; and a follow-up run over the
same feeds, starting from the first run's persisted seen-set, re-attempts the
failed item (same fingerprint and text), provided the fingerprint did not
reach the first run's final seen-set through some other item. -/
theorem claim_C2_publish_failure (c : Collab) (feeds : List Feed)
    (file : Option String) (source : String) (st : BotState) (e : Entry)
    (rest : List Entry) (fp text : String)
    (hpub : c.pub (entryText source e) (mediaIds c e) = false)
    (hcap : st.posted < MAX_POSTS_PER_RUN)
    (hmem : Event.attempt fp text false ∈ (run_bot c feeds file).events)
    (hfresh : fp ∉ (run_bot c feeds file).state.seen) :
    (stepItem c source st e).1 = st ∧
    runItems c source st (e :: rest) =
      ((runItems c source st rest).1,
        (stepItem c source st e).2 ++ (runItems c source st rest).2) ∧
    Event.attempt fp text false ∈
      (run_bot c feeds (some (run_bot c feeds file).saved)).events := by
  have hstate : (stepItem c source st e).1 = st := by
    by_cases g1 : entryTitle e = "" ∨ entryLink e = ""
    · unfold stepItem; rw [if_pos g1]
    · by_cases g2 : looks_like_patriots (entryTitle e) = false
      · unfold stepItem; rw [if_neg g1, if_pos g2]
      · by_cases g3 : entryFp e ∈ st.seen
        · unfold stepItem; rw [if_neg g1, if_neg g2, if_pos g3]
        · unfold stepItem
          rw [if_neg g1, if_neg g2, if_neg g3, if_neg (by rw [hpub]; simp)]
  refine ⟨hstate, ?_, ?_⟩
  · rw [runItems_cons, if_neg (not_le.mpr hcap), hstate]
  · have hwf : ∀ x ∈ (runFeeds c ⟨load_seen file, 0⟩ feeds).1.seen, WfFp x :=
      runFeeds_wf c feeds ⟨load_seen file, 0⟩ (fun x hx => load_elems_wf hx)
    have hnd : (runFeeds c ⟨load_seen file, 0⟩ feeds).1.seen.Nodup :=
      runFeeds_seen_nodup c feeds ⟨load_seen file, 0⟩ (load_seen_nodup file)
    have hperm :=
      load_save_perm (runFeeds c ⟨load_seen file, 0⟩ feeds).1.seen hnd hwf
    show Event.attempt fp text false ∈
      (runFeeds c
        ⟨load_seen (some (save_seen (runFeeds c ⟨load_seen file, 0⟩ feeds).1.seen)),
          0⟩ feeds).2
    exact runFeeds_refail c
      (load_seen (some (save_seen (runFeeds c ⟨load_seen file, 0⟩ feeds).1.seen)))
      fp text (fun hmemF => hfresh (hperm.mem_iff.mp hmemF)) feeds
      ⟨load_seen file, 0⟩ (fun x hx => hperm.mem_iff.mpr hx) hmem

theorem claim_C2_publish_failure_witness :
    c2Collab.pub (entryText "S" entryA) (mediaIds c2Collab entryA) = false ∧
    (BotState.mk [] 0).posted < MAX_POSTS_PER_RUN ∧
    Event.attempt (entryFp entryA) (entryText "S" entryA) false ∈
      (run_bot c2Collab c2Feeds none).events ∧
    entryFp entryA ∉ (run_bot c2Collab c2Feeds none).state.seen ∧
    ((stepItem c2Collab "S" ⟨[], 0⟩ entryA).1 = ⟨[], 0⟩ ∧
      runItems c2Collab "S" ⟨[], 0⟩ [entryA] =
        ((runItems c2Collab "S" ⟨[], 0⟩ []).1,
          (stepItem c2Collab "S" ⟨[], 0⟩ entryA).2 ++
            (runItems c2Collab "S" ⟨[], 0⟩ []).2) ∧
      Event.attempt (entryFp entryA) (entryText "S" entryA) false ∈
        (run_bot c2Collab c2Feeds
          (some (run_bot c2Collab c2Feeds none).saved)).events) :=
  ⟨rfl, by decide, by decide, by decide,
    claim_C2_publish_failure c2Collab c2Feeds none "S" ⟨[], 0⟩ entryA []
      (entryFp entryA) (entryText "S" entryA) rfl (by decide) (by decide)
      (by decide)⟩
